import Mathlib

/-!
Verification of the search core of a chess engine: a shallow embedding of
the transposition table (`TranspositionTable.cpp`), the move-ordering and
search routines (`Search.cpp`), and an abstract game-tree model used to
compare the pruned alpha-beta search with exhaustive minimax.

C++ `int` values are modelled as `Int`; the one place where 32-bit signed
overflow actually occurs (`1 << 31` in `Search::scoreMoves`) is modelled
with an explicit wrap-around function `i32`.
-/

set_option maxHeartbeats 1000000

/-- `MATE_SCORE` constant from the sources (`#define MATE_SCORE 65536`). -/
def MATE_SCORE : Int := 65536

/-- Wrap an integer into the 32-bit signed range, the behaviour of C++ `int`
arithmetic under two's complement. -/
def i32 (n : Int) : Int := (n + 2 ^ 31) % 2 ^ 32 - 2 ^ 31

/-- Move value type: origin square, destination square, move-subtype flag and
promotion piece type, with structural equality (from the repository's move
representation used by `Search.cpp`; flags: 0 quiet, 1..5 capture of the piece
type given by the flag, 6 castling, 7 and above other special quiet moves). -/
structure Move where
  start : Nat
  end_ : Nat
  flag : Nat
  promotionType : Nat
deriving DecidableEq, Repr

/-- Modelled from the spec: the all-zero null move constant (`NULL_MOVE`),
whose definition lives in a header outside `src/`. -/
def NULL_MOVE : Move := ⟨0, 0, 0, 0⟩

/-- Node types of cache entries (EMPTY marks an unused slot). -/
inductive TranspositionTable.NodeType where
  | EMPTY
  | EXACT
  | UPPERBOUND
  | LOWERBOUND
deriving DecidableEq, Repr

/-- A transposition-table entry: stored key, best move, search depth, score
and node type, as constructed at the call sites in `Search.cpp`. -/
structure TranspositionTable.Entry where
  key : Int
  bestMove : Move
  depth : Int
  score : Int
  nodeType : TranspositionTable.NodeType
deriving DecidableEq, Repr

/-- The transposition table: a direct-mapped array of `size` slots (the
concrete capacity `TT_SIZE` lives in the header, so the size is a field),
plus the read/write/collision counters. -/
structure TranspositionTable where
  size : Nat
  entries : Nat → TranspositionTable.Entry
  reads : Nat
  writes : Nat
  collisions : Nat

/-- Slot index for a key: `abs(key) % TT_SIZE`. -/
def TranspositionTable.index (tt : TranspositionTable) (key : Int) : Nat :=
  key.natAbs % tt.size

/-- The mate-score re-relativization performed by `getEntry`: a stored score
of magnitude `MATE_SCORE` is turned into `sign * (MATE_SCORE - ply)`. -/
def TranspositionTable.adjustEntry (entry : TranspositionTable.Entry) (ply : Int) :
    TranspositionTable.Entry :=
  if (entry.score.natAbs : Int) = MATE_SCORE then
    let sign : Int := if entry.score > 0 then 1 else -1
    { entry with score := sign * (MATE_SCORE - ply) }
  else entry

/-- `TranspositionTable::getEntry`: reads the slot `abs(key) % TT_SIZE`,
re-relativizes mate scores to the reader's ply, and increments the read
counter; it never compares the stored key with the requested one. -/
def TranspositionTable.getEntry (tt : TranspositionTable) (key : Int) (ply : Int) :
    TranspositionTable.Entry × TranspositionTable :=
  let entry := tt.entries (tt.index key)
  (TranspositionTable.adjustEntry entry ply, { tt with reads := tt.reads + 1 })

/-- `TranspositionTable::contains`: the probe is a hit only if the slot is
non-empty and its stored key matches; an occupied slot with a different key
counts a collision. -/
def TranspositionTable.contains (tt : TranspositionTable) (key : Int) :
    Bool × TranspositionTable :=
  let entry := tt.entries (tt.index key)
  let exists_ : Bool := decide (entry.nodeType ≠ TranspositionTable.NodeType.EMPTY)
  let sameKey : Bool := decide (entry.key = key)
  (exists_ && sameKey,
    if exists_ && !sameKey then { tt with collisions := tt.collisions + 1 } else tt)

/-- `TranspositionTable::write`: store an entry in a slot, counting the write. -/
def TranspositionTable.write (tt : TranspositionTable) (index : Nat)
    (entry : TranspositionTable.Entry) : TranspositionTable :=
  { tt with
    entries := fun i => if i = index then entry else tt.entries i
    writes := tt.writes + 1 }

/-- The mate-score normalization performed by `setEntry` before the
replacement decision: scores at or above the ply-dependent mate threshold are
canonicalized to magnitude `MATE_SCORE`. -/
def TranspositionTable.normalizeEntry (entry : TranspositionTable.Entry) (ply : Int) :
    TranspositionTable.Entry :=
  if (entry.score.natAbs : Int) ≥ MATE_SCORE - (entry.depth + ply) then
    let sign : Int := if entry.score > 0 then 1 else -1
    { entry with score := sign * MATE_SCORE }
  else entry

/-- `TranspositionTable::setEntry`: normalize mate scores, then apply the
replacement scheme (prefer EXACT nodes to bounds, deeper to shallower,
ties to the new entry; an empty slot always accepts). -/
def TranspositionTable.setEntry (tt : TranspositionTable) (key : Int)
    (entry0 : TranspositionTable.Entry) (ply : Int) : TranspositionTable :=
  let index := tt.index key
  let entry := TranspositionTable.normalizeEntry entry0 ply
  let savedType := (tt.entries index).nodeType
  let newType := entry.nodeType
  if savedType ≠ TranspositionTable.NodeType.EMPTY then
    if (savedType ≠ TranspositionTable.NodeType.EXACT ∧
        newType ≠ TranspositionTable.NodeType.EXACT) ∨
       (savedType = TranspositionTable.NodeType.EXACT ∧
        newType = TranspositionTable.NodeType.EXACT) then
      if (tt.entries index).depth ≤ entry.depth then tt.write index entry else tt
    else
      if savedType ≠ TranspositionTable.NodeType.EXACT then tt.write index entry else tt
  else tt.write index entry

theorem TranspositionTable.normalizeEntry_nodeType (e : TranspositionTable.Entry) (ply : Int) :
    (TranspositionTable.normalizeEntry e ply).nodeType = e.nodeType := by
  unfold TranspositionTable.normalizeEntry
  split <;> rfl

theorem TranspositionTable.normalizeEntry_depth (e : TranspositionTable.Entry) (ply : Int) :
    (TranspositionTable.normalizeEntry e ply).depth = e.depth := by
  unfold TranspositionTable.normalizeEntry
  split <;> rfl

/-- On an empty slot, `setEntry` always writes the normalized entry. -/
theorem TranspositionTable.setEntry_empty (tt : TranspositionTable) (key : Int)
    (e : TranspositionTable.Entry) (ply : Int)
    (hempty : (tt.entries (tt.index key)).nodeType = TranspositionTable.NodeType.EMPTY) :
    (tt.setEntry key e ply).entries (tt.index key)
      = TranspositionTable.normalizeEntry e ply := by
  unfold TranspositionTable.setEntry TranspositionTable.write
  simp [hempty]

theorem TranspositionTable.setEntry_size (tt : TranspositionTable) (key : Int)
    (e : TranspositionTable.Entry) (ply : Int) :
    (tt.setEntry key e ply).size = tt.size := by
  simp only [TranspositionTable.setEntry, TranspositionTable.write]
  split_ifs <;> rfl

/-- `setEntry` never changes the capacity, so slot indices are stable. -/
theorem TranspositionTable.index_setEntry (tt : TranspositionTable) (key : Int)
    (e : TranspositionTable.Entry) (ply : Int) (key2 : Int) :
    (tt.setEntry key e ply).index key2 = tt.index key2 := by
  unfold TranspositionTable.index
  rw [TranspositionTable.setEntry_size]

/-- Claim C2: storing an entry whose score encodes a mate at root distance `p1`
(magnitude `MATE_SCORE - p1`) into an empty slot at ply `p1`, then reading the
same slot at ply `p2`, yields a score of magnitude `MATE_SCORE - p2` with the
original sign: the write normalizes mate scores to the ply-independent
magnitude `MATE_SCORE` and the read re-relativizes them to the reader's ply. -/
theorem claim_C2_mate_roundtrip (tt : TranspositionTable) (key : Int)
    (p1 p2 depth : Int) (mv : Move) (nt : TranspositionTable.NodeType) (s : Int)
    (hempty : (tt.entries (tt.index key)).nodeType = TranspositionTable.NodeType.EMPTY)
    (hp1 : 0 ≤ p1) (hp2 : 0 ≤ p2) (hdepth : 0 ≤ depth)
    (hs : s = MATE_SCORE - p1 ∨ s = -(MATE_SCORE - p1)) :
    (0 < s →
      ((tt.setEntry key ⟨key, mv, depth, s, nt⟩ p1).getEntry key p2).1.score
        = MATE_SCORE - p2) ∧
    (s < 0 →
      ((tt.setEntry key ⟨key, mv, depth, s, nt⟩ p1).getEntry key p2).1.score
        = -(MATE_SCORE - p2)) := by
  have hnorm : ((⟨key, mv, depth, s, nt⟩ : TranspositionTable.Entry).score.natAbs : Int)
      ≥ MATE_SCORE - ((⟨key, mv, depth, s, nt⟩ : TranspositionTable.Entry).depth + p1) := by
    have habs : (MATE_SCORE - p1) ≤ (s.natAbs : Int) := by
      rcases hs with h | h <;> rw [h, Int.natCast_natAbs]
      · exact le_abs_self _
      · rw [abs_neg]; exact le_abs_self _
    show (s.natAbs : Int) ≥ MATE_SCORE - (depth + p1)
    omega
  have hwrite := TranspositionTable.setEntry_empty tt key ⟨key, mv, depth, s, nt⟩ p1 hempty
  have hfull : TranspositionTable.normalizeEntry ⟨key, mv, depth, s, nt⟩ p1
      = ⟨key, mv, depth, (if 0 < s then (1 : Int) else -1) * MATE_SCORE, nt⟩ := by
    unfold TranspositionTable.normalizeEntry
    rw [if_pos hnorm]
  constructor <;> intro hsign
  · have h1 : (0 : Int) < s := hsign
    unfold TranspositionTable.getEntry
    rw [TranspositionTable.index_setEntry, hwrite, hfull, if_pos h1]
    unfold TranspositionTable.adjustEntry
    norm_num [MATE_SCORE]
  · have h0 : ¬ (0 : Int) < s := by omega
    unfold TranspositionTable.getEntry
    rw [TranspositionTable.index_setEntry, hwrite, hfull, if_neg h0]
    unfold TranspositionTable.adjustEntry
    norm_num [MATE_SCORE]

def ttEmptyTest : TranspositionTable :=
  { size := 16
    entries := fun _ => ⟨0, NULL_MOVE, 0, 0, TranspositionTable.NodeType.EMPTY⟩
    reads := 0
    writes := 0
    collisions := 0 }

theorem claim_C2_mate_roundtrip_witness :
    ((ttEmptyTest.setEntry 5 ⟨5, NULL_MOVE, 2, MATE_SCORE - 3, TranspositionTable.NodeType.EXACT⟩ 3).getEntry 5 7).1.score
      = MATE_SCORE - 7 :=
  (claim_C2_mate_roundtrip ttEmptyTest 5 3 7 2 NULL_MOVE TranspositionTable.NodeType.EXACT
    (MATE_SCORE - 3) (by decide) (by decide) (by decide) (by decide)
    (Or.inl rfl)).1 (by decide)

/-- Claim C3: the replacement policy of `setEntry`. An empty slot always
accepts the (normalized) new entry; an EXACT entry overwrites a stored bound;
a stored EXACT entry survives an incoming bound regardless of depths; when
both are EXACT or both are bounds, the incoming entry overwrites exactly when
its depth is at least the stored depth (ties overwrite). -/
theorem claim_C3_replacement (tt : TranspositionTable) (key : Int)
    (e : TranspositionTable.Entry) (ply : Int) :
    ((tt.entries (tt.index key)).nodeType = TranspositionTable.NodeType.EMPTY →
      (tt.setEntry key e ply).entries (tt.index key)
        = TranspositionTable.normalizeEntry e ply) ∧
    (((tt.entries (tt.index key)).nodeType = TranspositionTable.NodeType.UPPERBOUND ∨
      (tt.entries (tt.index key)).nodeType = TranspositionTable.NodeType.LOWERBOUND) →
      e.nodeType = TranspositionTable.NodeType.EXACT →
      (tt.setEntry key e ply).entries (tt.index key)
        = TranspositionTable.normalizeEntry e ply) ∧
    ((tt.entries (tt.index key)).nodeType = TranspositionTable.NodeType.EXACT →
      (e.nodeType = TranspositionTable.NodeType.UPPERBOUND ∨
       e.nodeType = TranspositionTable.NodeType.LOWERBOUND) →
      (tt.setEntry key e ply).entries (tt.index key) = tt.entries (tt.index key)) ∧
    ((((tt.entries (tt.index key)).nodeType = TranspositionTable.NodeType.EXACT ∧
       e.nodeType = TranspositionTable.NodeType.EXACT) ∨
      (((tt.entries (tt.index key)).nodeType = TranspositionTable.NodeType.UPPERBOUND ∨
        (tt.entries (tt.index key)).nodeType = TranspositionTable.NodeType.LOWERBOUND) ∧
       (e.nodeType = TranspositionTable.NodeType.UPPERBOUND ∨
        e.nodeType = TranspositionTable.NodeType.LOWERBOUND))) →
      (((tt.entries (tt.index key)).depth ≤ e.depth →
        (tt.setEntry key e ply).entries (tt.index key)
          = TranspositionTable.normalizeEntry e ply) ∧
       (e.depth < (tt.entries (tt.index key)).depth →
        (tt.setEntry key e ply).entries (tt.index key) = tt.entries (tt.index key)))) := by
  have hnt := TranspositionTable.normalizeEntry_nodeType e ply
  have hdp := TranspositionTable.normalizeEntry_depth e ply
  simp only [TranspositionTable.index] at *
  refine ⟨fun h => TranspositionTable.setEntry_empty tt key e ply h, ?_, ?_, ?_⟩
  · intro hsaved hnew
    simp only [TranspositionTable.setEntry, TranspositionTable.write,
      TranspositionTable.index]
    rcases hsaved with h | h <;>
      simp [h, hnt, hnew]
  · intro hsaved hnew
    simp only [TranspositionTable.setEntry, TranspositionTable.write,
      TranspositionTable.index]
    rcases hnew with h | h <;>
      simp [hsaved, hnt, h]
  · intro hboth
    constructor <;> intro hdepth <;>
      simp only [TranspositionTable.setEntry, TranspositionTable.write,
        TranspositionTable.index]
    · rcases hboth with ⟨h1, h2⟩ | ⟨h1 | h1, h2 | h2⟩ <;>
        simp [h1, h2, hnt, hdp, hdepth]
    · rcases hboth with ⟨h1, h2⟩ | ⟨h1 | h1, h2 | h2⟩ <;>
        simp [h1, h2, hnt, hdp, not_le.mpr hdepth]

def ttExactTest : TranspositionTable :=
  { size := 16
    entries := fun _ => ⟨5, NULL_MOVE, 3, 10, TranspositionTable.NodeType.EXACT⟩
    reads := 0
    writes := 0
    collisions := 0 }

theorem claim_C3_replacement_witness :
    (ttExactTest.setEntry 5 ⟨5, NULL_MOVE, 5, 20, TranspositionTable.NodeType.UPPERBOUND⟩ 0).entries
        (ttExactTest.index 5)
      = ttExactTest.entries (ttExactTest.index 5) :=
  (claim_C3_replacement ttExactTest 5 ⟨5, NULL_MOVE, 5, 20, TranspositionTable.NodeType.UPPERBOUND⟩ 0).2.2.1
    (by decide) (Or.inl rfl)

/-- Claim C10: `getEntry` returns whatever (mate-adjusted) entry occupies slot
`abs(key) % size`, never comparing the stored key with the requested key (two
keys mapping to the same slot produce the same entry), and increments the read
counter unconditionally; key matching and collision counting happen only in
`contains`, which reports a hit exactly when the slot is occupied and the
stored key matches. -/
theorem claim_C10_getEntry_unchecked (tt : TranspositionTable) (key key2 ply : Int)
    (hidx : tt.index key2 = tt.index key) :
    ((tt.getEntry key ply).1
        = TranspositionTable.adjustEntry (tt.entries (tt.index key)) ply) ∧
    ((tt.getEntry key ply).2.reads = tt.reads + 1) ∧
    ((tt.getEntry key ply).2.entries = tt.entries) ∧
    ((tt.getEntry key2 ply).1 = (tt.getEntry key ply).1) ∧
    ((tt.contains key).1 = true ↔
      ((tt.entries (tt.index key)).nodeType ≠ TranspositionTable.NodeType.EMPTY ∧
        (tt.entries (tt.index key)).key = key)) ∧
    ((tt.contains key).2.collisions =
      if (tt.entries (tt.index key)).nodeType ≠ TranspositionTable.NodeType.EMPTY ∧
          (tt.entries (tt.index key)).key ≠ key
        then tt.collisions + 1 else tt.collisions) := by
  refine ⟨rfl, rfl, rfl, ?_, ?_, ?_⟩
  · unfold TranspositionTable.getEntry
    rw [hidx]
  · simp [TranspositionTable.contains]
  · by_cases h1 : (tt.entries (tt.index key)).nodeType = TranspositionTable.NodeType.EMPTY <;>
      by_cases h2 : (tt.entries (tt.index key)).key = key <;>
      simp [TranspositionTable.contains, h1, h2]

def ttAliasTest : TranspositionTable :=
  { size := 16
    entries := fun _ => ⟨99, NULL_MOVE, 4, 42, TranspositionTable.NodeType.EXACT⟩
    reads := 0
    writes := 0
    collisions := 0 }

theorem claim_C10_getEntry_unchecked_witness :
    (ttAliasTest.getEntry 21 0).1 = (ttAliasTest.getEntry 5 0).1 :=
  (claim_C10_getEntry_unchecked ttAliasTest 5 21 0 (by decide)).2.2.2.1

/-- Result record of `Search::getTransposition`: the returned flag together
with the final values of the by-reference parameters `score`, `alpha`,
`beta`, `hashMove`, and the table state (whose counters the probe mutates). -/
structure ProbeResult where
  hit : Bool
  score : Int
  alpha : Int
  beta : Int
  hashMove : Move
  tt : TranspositionTable

/-- `Search::getTransposition`: probe the table; a stored entry is usable only
when `contains` hits and its depth is at least the requested depth; EXACT
entries and sufficiently strong bounds short-circuit, other usable bounds set
the hash move and tighten `beta` (upper bounds) or `alpha` (lower bounds). -/
def Search.getTransposition (tt : TranspositionTable) (hash : Int) (depth ply : Int)
    (score alpha beta : Int) (hashMove : Move) : ProbeResult :=
  let c := tt.contains hash
  if c.1 then
    let g := c.2.getEntry hash ply
    let entry := g.1
    let tt2 := g.2
    if entry.depth ≥ depth then
      match entry.nodeType with
      | TranspositionTable.NodeType.EXACT =>
          ⟨true, entry.score, alpha, beta, hashMove, tt2⟩
      | TranspositionTable.NodeType.UPPERBOUND =>
          if entry.score ≤ alpha then ⟨true, entry.score, alpha, beta, hashMove, tt2⟩
          else ⟨false, score, alpha, min beta entry.score, entry.bestMove, tt2⟩
      | TranspositionTable.NodeType.LOWERBOUND =>
          if entry.score ≥ beta then ⟨true, entry.score, alpha, beta, hashMove, tt2⟩
          else ⟨false, score, max alpha entry.score, beta, entry.bestMove, tt2⟩
      | TranspositionTable.NodeType.EMPTY =>
          ⟨false, score, alpha, beta, hashMove, tt2⟩
    else ⟨false, score, alpha, beta, hashMove, tt2⟩
  else ⟨false, score, alpha, beta, hashMove, c.2⟩

theorem TranspositionTable.contains_entries (tt : TranspositionTable) (key : Int) :
    (tt.contains key).2.entries = tt.entries := by
  simp only [TranspositionTable.contains]
  split_ifs <;> rfl

theorem TranspositionTable.contains_size (tt : TranspositionTable) (key : Int) :
    (tt.contains key).2.size = tt.size := by
  simp only [TranspositionTable.contains]
  split_ifs <;> rfl

/-- The entry that `getTransposition` inspects: the slot content for the hash,
mate-adjusted to the probing ply. -/
theorem Search.getTransposition_entry (tt : TranspositionTable) (hash ply : Int) :
    ((tt.contains hash).2.getEntry hash ply).1
      = TranspositionTable.adjustEntry (tt.entries (tt.index hash)) ply := by
  unfold TranspositionTable.getEntry
  rw [show (tt.contains hash).2.index hash = tt.index hash by
    unfold TranspositionTable.index
    rw [TranspositionTable.contains_size]]
  rw [TranspositionTable.contains_entries]

/-- Claim C4: the cache probe of `alphaBeta`. An entry is used only when the
keyed probe hits and the stored depth is at least the requested depth; then an
EXACT entry short-circuits with its (ply-adjusted) score, an UPPER_BOUND entry
with score at most alpha and a LOWER_BOUND entry with score at least beta
short-circuit likewise, and otherwise the stored best move becomes the
ordering hint while beta (upper bound) or alpha (lower bound) is tightened
toward the stored score. -/
theorem claim_C4_cache_probe (tt : TranspositionTable) (hash depth ply : Int)
    (score0 alpha beta : Int) (hashMove : Move) :
    (((tt.contains hash).1 = false →
      (Search.getTransposition tt hash depth ply score0 alpha beta hashMove).hit = false ∧
      (Search.getTransposition tt hash depth ply score0 alpha beta hashMove).alpha = alpha ∧
      (Search.getTransposition tt hash depth ply score0 alpha beta hashMove).beta = beta ∧
      (Search.getTransposition tt hash depth ply score0 alpha beta hashMove).hashMove = hashMove)) ∧
    (((tt.contains hash).1 = true →
      (TranspositionTable.adjustEntry (tt.entries (tt.index hash)) ply).depth < depth →
      (Search.getTransposition tt hash depth ply score0 alpha beta hashMove).hit = false ∧
      (Search.getTransposition tt hash depth ply score0 alpha beta hashMove).alpha = alpha ∧
      (Search.getTransposition tt hash depth ply score0 alpha beta hashMove).beta = beta ∧
      (Search.getTransposition tt hash depth ply score0 alpha beta hashMove).hashMove = hashMove)) ∧
    (((tt.contains hash).1 = true →
      (TranspositionTable.adjustEntry (tt.entries (tt.index hash)) ply).depth ≥ depth →
      (TranspositionTable.adjustEntry (tt.entries (tt.index hash)) ply).nodeType
        = TranspositionTable.NodeType.EXACT →
      (Search.getTransposition tt hash depth ply score0 alpha beta hashMove).hit = true ∧
      (Search.getTransposition tt hash depth ply score0 alpha beta hashMove).score
        = (TranspositionTable.adjustEntry (tt.entries (tt.index hash)) ply).score)) ∧
    (((tt.contains hash).1 = true →
      (TranspositionTable.adjustEntry (tt.entries (tt.index hash)) ply).depth ≥ depth →
      (TranspositionTable.adjustEntry (tt.entries (tt.index hash)) ply).nodeType
        = TranspositionTable.NodeType.UPPERBOUND →
      (TranspositionTable.adjustEntry (tt.entries (tt.index hash)) ply).score ≤ alpha →
      (Search.getTransposition tt hash depth ply score0 alpha beta hashMove).hit = true ∧
      (Search.getTransposition tt hash depth ply score0 alpha beta hashMove).score
        = (TranspositionTable.adjustEntry (tt.entries (tt.index hash)) ply).score)) ∧
    (((tt.contains hash).1 = true →
      (TranspositionTable.adjustEntry (tt.entries (tt.index hash)) ply).depth ≥ depth →
      (TranspositionTable.adjustEntry (tt.entries (tt.index hash)) ply).nodeType
        = TranspositionTable.NodeType.UPPERBOUND →
      alpha < (TranspositionTable.adjustEntry (tt.entries (tt.index hash)) ply).score →
      (Search.getTransposition tt hash depth ply score0 alpha beta hashMove).hit = false ∧
      (Search.getTransposition tt hash depth ply score0 alpha beta hashMove).hashMove
        = (TranspositionTable.adjustEntry (tt.entries (tt.index hash)) ply).bestMove ∧
      (Search.getTransposition tt hash depth ply score0 alpha beta hashMove).beta
        = min beta (TranspositionTable.adjustEntry (tt.entries (tt.index hash)) ply).score ∧
      (Search.getTransposition tt hash depth ply score0 alpha beta hashMove).alpha = alpha)) ∧
    (((tt.contains hash).1 = true →
      (TranspositionTable.adjustEntry (tt.entries (tt.index hash)) ply).depth ≥ depth →
      (TranspositionTable.adjustEntry (tt.entries (tt.index hash)) ply).nodeType
        = TranspositionTable.NodeType.LOWERBOUND →
      (TranspositionTable.adjustEntry (tt.entries (tt.index hash)) ply).score ≥ beta →
      (Search.getTransposition tt hash depth ply score0 alpha beta hashMove).hit = true ∧
      (Search.getTransposition tt hash depth ply score0 alpha beta hashMove).score
        = (TranspositionTable.adjustEntry (tt.entries (tt.index hash)) ply).score)) ∧
    (((tt.contains hash).1 = true →
      (TranspositionTable.adjustEntry (tt.entries (tt.index hash)) ply).depth ≥ depth →
      (TranspositionTable.adjustEntry (tt.entries (tt.index hash)) ply).nodeType
        = TranspositionTable.NodeType.LOWERBOUND →
      (TranspositionTable.adjustEntry (tt.entries (tt.index hash)) ply).score < beta →
      (Search.getTransposition tt hash depth ply score0 alpha beta hashMove).hit = false ∧
      (Search.getTransposition tt hash depth ply score0 alpha beta hashMove).hashMove
        = (TranspositionTable.adjustEntry (tt.entries (tt.index hash)) ply).bestMove ∧
      (Search.getTransposition tt hash depth ply score0 alpha beta hashMove).alpha
        = max alpha (TranspositionTable.adjustEntry (tt.entries (tt.index hash)) ply).score ∧
      (Search.getTransposition tt hash depth ply score0 alpha beta hashMove).beta = beta)) := by
  have hE := Search.getTransposition_entry tt hash ply
  refine ⟨?_, ?_, ?_, ?_, ?_, ?_, ?_⟩
  · intro h
    simp [Search.getTransposition, h]
  · intro h hd
    simp only [Search.getTransposition, h, hE, if_true]
    rw [if_neg (by omega)]
    exact ⟨rfl, rfl, rfl, rfl⟩
  · intro h hd hx
    simp only [Search.getTransposition, h, hE, if_true]
    rw [if_pos hd]
    simp [hx]
  · intro h hd hx hs
    simp only [Search.getTransposition, h, hE, if_true]
    rw [if_pos hd]
    simp [hx, if_pos hs]
  · intro h hd hx hs
    have hns : ¬ (TranspositionTable.adjustEntry (tt.entries (tt.index hash)) ply).score ≤ alpha :=
      not_le.mpr hs
    simp only [Search.getTransposition, h, hE, if_true]
    rw [if_pos hd]
    simp [hx, if_neg hns]
  · intro h hd hx hs
    simp only [Search.getTransposition, h, hE, if_true]
    rw [if_pos hd]
    simp [hx, if_pos hs]
  · intro h hd hx hs
    have hns : ¬ (TranspositionTable.adjustEntry (tt.entries (tt.index hash)) ply).score ≥ beta :=
      not_le.mpr hs
    simp only [Search.getTransposition, h, hE, if_true]
    rw [if_pos hd]
    simp [hx, if_neg hns]

theorem claim_C4_cache_probe_witness :
    (Search.getTransposition ttExactTest 5 3 0 0 (-100) 100 NULL_MOVE).hit = true ∧
    (Search.getTransposition ttExactTest 5 3 0 0 (-100) 100 NULL_MOVE).score = 10 := by
  have h := (claim_C4_cache_probe ttExactTest 5 3 0 0 (-100) 100 NULL_MOVE).2.2.1
    (by decide) (by decide) (by decide)
  exact ⟨h.1, h.2.trans (by decide)⟩

/-- Modelled from the spec: the piece-type code of a pawn. The enum lives in a
header outside `src/`; the codes are pinned down by the `mg_value[type - 1]`
indexing in `Search.cpp` (types 1..6 map to material values 0..5). -/
def PAWN : Nat := 1

/-- Modelled from the spec: the piece-type code of a queen (see `PAWN`). -/
def QUEEN : Nat := 5

/-- The board fields read by the search, as exposed by the external board
collaborator: position hash, half-move clock, per-square piece-type codes
(0 for an empty square), the chronological stack of position hashes, the
indices of irreversible moves in that stack, and the side to move. -/
structure ChessBoard where
  hashCode : Int
  halfMoveClock : Int
  squares : List Nat
  positionHistory : List Int
  irreversibleIndices : List Int
  sideToMove : Nat
deriving DecidableEq, Repr

/-- The mutable per-search state of `Search`: killer moves and their
round-robin flag, the history table, and the previous iteration's principal
variation. -/
structure SearchState where
  killerMoves : Nat → Move × Move
  killerMoveIndexOne : Bool
  history : Nat → Nat → Nat → Int
  lastPV : List Move

/-- A move paired with its ordering priority. -/
structure ScoredMove where
  move : Move
  score : Int
deriving DecidableEq, Repr

/-- The PV-match test of `Search::scoreMoves`:
`lastPV.size() - 1 <= ply && lastPV[ply] == move` with `size()` unsigned, so
an empty PV never matches (`size() - 1` wraps to a huge value); the
out-of-range read `lastPV[ply]` for `ply > size() - 1` (undefined behaviour
in C++) is modelled as reading the null move. -/
def Search.isPVMove (st : SearchState) (ply : Nat) (move : Move) : Prop :=
  ¬ st.lastPV.isEmpty ∧ st.lastPV.length - 1 ≤ ply ∧ st.lastPV.getD ply NULL_MOVE = move

instance (st : SearchState) (ply : Nat) (move : Move) :
    Decidable (Search.isPVMove st ply move) := by
  unfold Search.isPVMove
  infer_instance

/-- The per-move body of `Search::scoreMoves`, for the main search: PV match
scores `1 << 31` (which overflows to `-2^31` in 32-bit int arithmetic), hash
move `1 << 30`, promotions score promoted value minus pawn value, quiet moves
(flag 0 or >= 7) score killer constant `1 << 14` or their history value,
castling (flag 6) scores `1 << 16`, and captures score victim minus
aggressor, a zero difference bumped to 1, positive differences shifted left
by 16 bits. -/
def Search.scoreOfMove (mg : Nat → Int) (st : SearchState) (board : ChessBoard)
    (ply : Nat) (hashMove : Move) (move : Move) : Int :=
  if Search.isPVMove st ply move then i32 (2 ^ 31)
  else if move = hashMove then 2 ^ 30
  else if move.promotionType ≠ 0 then mg (move.promotionType - 1) - mg 0
  else if move.flag = 0 ∨ 7 ≤ move.flag then
    if move = (st.killerMoves ply).1 ∨ move = (st.killerMoves ply).2 then 2 ^ 14
    else st.history board.sideToMove move.start move.end_
  else if move.flag = 6 then 2 ^ 16
  else
    let agressor := mg (board.squares.getD move.start 0 - 1)
    let victim := mg (move.flag - 1)
    let captureScore := i32 (victim - agressor)
    let captureScore := if captureScore = 0 then 1 else captureScore
    let captureScore := if captureScore > 0 then i32 (captureScore * 2 ^ 16) else captureScore
    i32 (0 + captureScore)

/-- `Search::scoreMoves`: assign each move its ordering priority. -/
def Search.scoreMoves (mg : Nat → Int) (st : SearchState) (board : ChessBoard)
    (moves : List Move) (ply : Nat) (hashMove : Move) : List ScoredMove :=
  moves.map (fun move => ⟨move, Search.scoreOfMove mg st board ply hashMove move⟩)

theorem i32_lower (n : Int) : -(2 ^ 31) ≤ i32 n := by
  unfold i32
  omega

theorem i32_upper (n : Int) : i32 n < 2 ^ 31 := by
  unfold i32
  omega

theorem i32_eq_self (n : Int) (h1 : -(2 ^ 31) ≤ n) (h2 : n < 2 ^ 31) : i32 n = n := by
  unfold i32
  omega

/-- A concrete material-value table for instantiating examples (the engine's
own `mg_value` lives in the evaluator, outside `src/`; only its shape — one
value per piece type, pawn smallest — matters here). -/
def mgTest : Nat → Int := fun i =>
  if i = 0 then 100
  else if i = 1 then 300
  else if i = 2 then 310
  else if i = 3 then 500
  else if i = 4 then 900
  else 0

def stPVTest : SearchState :=
  { killerMoves := fun _ => (NULL_MOVE, NULL_MOVE)
    killerMoveIndexOne := true
    history := fun _ _ _ => 0
    lastPV := [⟨8, 16, 0, 0⟩] }

def boardC7Test : ChessBoard :=
  { hashCode := 0
    halfMoveClock := 0
    squares := (List.replicate 64 0).set 10 QUEEN
    positionHistory := []
    irreversibleIndices := []
    sideToMove := 0 }

/-- Counterexample to claim C7 as stated: with the previous PV `[b1-c1]`
(squares named by index), zero history and no killers, (i) the PV-matching
move scores `1 << 31`, which overflows to `-2^31` and sorts it below a plain
quiet move, not first; (ii) a materially losing capture (queen takes pawn)
scores negative, below a quiet move, so not all captures outrank quiet moves;
(iii) a queen promotion scores below castling, so promotions do not outrank
castling. -/
theorem claim_C7_counterexample :
    (Search.scoreOfMove mgTest stPVTest boardC7Test 0 ⟨62, 62, 0, 0⟩ ⟨8, 16, 0, 0⟩
      < Search.scoreOfMove mgTest stPVTest boardC7Test 0 ⟨62, 62, 0, 0⟩ ⟨9, 17, 0, 0⟩) ∧
    (Search.scoreOfMove mgTest stPVTest boardC7Test 0 ⟨62, 62, 0, 0⟩ ⟨10, 18, 1, 0⟩
      < Search.scoreOfMove mgTest stPVTest boardC7Test 0 ⟨62, 62, 0, 0⟩ ⟨9, 17, 0, 0⟩) ∧
    (Search.scoreOfMove mgTest stPVTest boardC7Test 0 ⟨62, 62, 0, 0⟩ ⟨48, 56, 8, 5⟩
      < Search.scoreOfMove mgTest stPVTest boardC7Test 0 ⟨62, 62, 0, 0⟩ ⟨4, 6, 6, 0⟩) := by
  decide

/-- On a winning-or-equal capture (victim value at least aggressor value),
`scoreOfMove` computes the exchange difference, bumps zero to one, and shifts
left by 16 bits, with no 32-bit wrap when the material values are small. -/
theorem Search.scoreOfMove_capture_win (mg : Nat → Int) (st : SearchState)
    (board : ChessBoard) (ply : Nat) (hashMove : Move) (m : Move)
    (hmg : ∀ i, 0 ≤ mg i ∧ mg i < 2 ^ 14)
    (hpv : ¬ Search.isPVMove st ply m) (hh : m ≠ hashMove)
    (hpromo : m.promotionType = 0) (hflag : ¬ (m.flag = 0 ∨ 7 ≤ m.flag))
    (hne6 : m.flag ≠ 6)
    (hwin : mg (board.squares.getD m.start 0 - 1) ≤ mg (m.flag - 1)) :
    Search.scoreOfMove mg st board ply hashMove m
      = (if mg (m.flag - 1) - mg (board.squares.getD m.start 0 - 1) = 0 then 1
         else mg (m.flag - 1) - mg (board.squares.getD m.start 0 - 1)) * 2 ^ 16 := by
  have ha := hmg (board.squares.getD m.start 0 - 1)
  have hv := hmg (m.flag - 1)
  unfold Search.scoreOfMove
  rw [if_neg hpv, if_neg hh, if_neg (by simp [hpromo]), if_neg hflag, if_neg hne6]
  have h1 : i32 (mg (m.flag - 1) - mg (board.squares.getD m.start 0 - 1))
      = mg (m.flag - 1) - mg (board.squares.getD m.start 0 - 1) :=
    i32_eq_self _ (by omega) (by omega)
  simp only [h1]
  by_cases h0 : mg (m.flag - 1) - mg (board.squares.getD m.start 0 - 1) = 0
  · simp only [h0, if_pos rfl]
    decide
  · rw [if_neg h0, if_pos (by omega)]
    have hc1 : (1 : Int) ≤ mg (m.flag - 1) - mg (board.squares.getD m.start 0 - 1) := by omega
    have hc2 : mg (m.flag - 1) - mg (board.squares.getD m.start 0 - 1) < 2 ^ 14 := by omega
    have hin : i32 ((mg (m.flag - 1) - mg (board.squares.getD m.start 0 - 1)) * 2 ^ 16)
        = (mg (m.flag - 1) - mg (board.squares.getD m.start 0 - 1)) * 2 ^ 16 :=
      i32_eq_self _ (by nlinarith) (by nlinarith)
    rw [hin, zero_add, hin]

/-- On a materially losing capture (victim value below aggressor value),
`scoreOfMove` leaves the negative exchange difference unscaled. -/
theorem Search.scoreOfMove_capture_lose (mg : Nat → Int) (st : SearchState)
    (board : ChessBoard) (ply : Nat) (hashMove : Move) (m : Move)
    (hmg : ∀ i, 0 ≤ mg i ∧ mg i < 2 ^ 14)
    (hpv : ¬ Search.isPVMove st ply m) (hh : m ≠ hashMove)
    (hpromo : m.promotionType = 0) (hflag : ¬ (m.flag = 0 ∨ 7 ≤ m.flag))
    (hne6 : m.flag ≠ 6)
    (hlose : mg (m.flag - 1) < mg (board.squares.getD m.start 0 - 1)) :
    Search.scoreOfMove mg st board ply hashMove m
      = mg (m.flag - 1) - mg (board.squares.getD m.start 0 - 1) := by
  have ha := hmg (board.squares.getD m.start 0 - 1)
  have hv := hmg (m.flag - 1)
  unfold Search.scoreOfMove
  rw [if_neg hpv, if_neg hh, if_neg (by simp [hpromo]), if_neg hflag, if_neg hne6]
  have h1 : i32 (mg (m.flag - 1) - mg (board.squares.getD m.start 0 - 1))
      = mg (m.flag - 1) - mg (board.squares.getD m.start 0 - 1) :=
    i32_eq_self _ (by omega) (by omega)
  simp only [h1]
  rw [if_neg (by omega), if_neg (by omega)]
  rw [zero_add, i32_eq_self _ (by omega) (by omega)]

/-- Claim C7, amended to the order the code actually produces (for material
values and history scores in their working ranges): the cache hint move is
highest at `2^30`; equal-or-winning captures score at least `2^16`, with
castling fixed at exactly `2^16`; killer quiet moves score `2^14`; other
quiet moves score their history value; promotions score promoted-minus-pawn
material (below the killer constant); materially losing captures score
negative; and the move matching the previous PV scores `1 << 31`, which
overflows to `-2^31` — the minimum — so it sorts last, not first. -/
theorem claim_C7_ordering_amended (mg : Nat → Int) (st : SearchState) (board : ChessBoard)
    (ply : Nat) (hashMove : Move)
    (hmg : ∀ i, 0 ≤ mg i ∧ mg i < 2 ^ 14)
    (hhist : ∀ c a b, -(2 ^ 31) ≤ st.history c a b ∧ st.history c a b < 2 ^ 14) :
    (∀ m, Search.isPVMove st ply m →
        Search.scoreOfMove mg st board ply hashMove m = -(2 ^ 31)) ∧
    (∀ m, -(2 ^ 31) ≤ Search.scoreOfMove mg st board ply hashMove m) ∧
    (∀ m, ¬ Search.isPVMove st ply m → m = hashMove →
        Search.scoreOfMove mg st board ply hashMove m = 2 ^ 30) ∧
    (∀ m, ¬ Search.isPVMove st ply m → m ≠ hashMove →
        Search.scoreOfMove mg st board ply hashMove m < 2 ^ 30) ∧
    (∀ m, ¬ Search.isPVMove st ply m → m ≠ hashMove → m.promotionType = 0 →
        m.flag = 6 → Search.scoreOfMove mg st board ply hashMove m = 2 ^ 16) ∧
    (∀ m, ¬ Search.isPVMove st ply m → m ≠ hashMove → m.promotionType = 0 →
        ¬ (m.flag = 0 ∨ 7 ≤ m.flag) → m.flag ≠ 6 →
        mg (board.squares.getD m.start 0 - 1) ≤ mg (m.flag - 1) →
        2 ^ 16 ≤ Search.scoreOfMove mg st board ply hashMove m) ∧
    (∀ m, ¬ Search.isPVMove st ply m → m ≠ hashMove → m.promotionType = 0 →
        ¬ (m.flag = 0 ∨ 7 ≤ m.flag) → m.flag ≠ 6 →
        mg (m.flag - 1) < mg (board.squares.getD m.start 0 - 1) →
        Search.scoreOfMove mg st board ply hashMove m < 0) ∧
    (∀ m, ¬ Search.isPVMove st ply m → m ≠ hashMove → m.promotionType = 0 →
        (m.flag = 0 ∨ 7 ≤ m.flag) →
        (m = (st.killerMoves ply).1 ∨ m = (st.killerMoves ply).2) →
        Search.scoreOfMove mg st board ply hashMove m = 2 ^ 14) ∧
    (∀ m, ¬ Search.isPVMove st ply m → m ≠ hashMove → m.promotionType = 0 →
        (m.flag = 0 ∨ 7 ≤ m.flag) →
        ¬ (m = (st.killerMoves ply).1 ∨ m = (st.killerMoves ply).2) →
        Search.scoreOfMove mg st board ply hashMove m
          = st.history board.sideToMove m.start m.end_) ∧
    (∀ m, ¬ Search.isPVMove st ply m → m ≠ hashMove → m.promotionType ≠ 0 →
        Search.scoreOfMove mg st board ply hashMove m = mg (m.promotionType - 1) - mg 0 ∧
        Search.scoreOfMove mg st board ply hashMove m < 2 ^ 14) := by
  refine ⟨?_, ?_, ?_, ?_, ?_, ?_, ?_, ?_, ?_, ?_⟩
  · intro m hp
    unfold Search.scoreOfMove
    rw [if_pos hp]
    decide
  · intro m
    have hp := hmg (m.promotionType - 1)
    have h0 := hmg 0
    have hhi := (hhist board.sideToMove m.start m.end_).1
    unfold Search.scoreOfMove
    split_ifs <;> first
      | exact i32_lower _
      | omega
  · intro m hp he
    unfold Search.scoreOfMove
    rw [if_neg hp, if_pos he]
  · intro m hp he
    by_cases hpr : m.promotionType = 0
    · by_cases hq : m.flag = 0 ∨ 7 ≤ m.flag
      · have hk := (hhist board.sideToMove m.start m.end_).2
        unfold Search.scoreOfMove
        rw [if_neg hp, if_neg he, if_neg (by simp [hpr]), if_pos hq]
        split_ifs <;> omega
      · by_cases h6 : m.flag = 6
        · unfold Search.scoreOfMove
          rw [if_neg hp, if_neg he, if_neg (by simp [hpr]), if_neg hq, if_pos h6]
          norm_num
        · by_cases hcap : mg (board.squares.getD m.start 0 - 1) ≤ mg (m.flag - 1)
          · rw [Search.scoreOfMove_capture_win mg st board ply hashMove m hmg hp he hpr hq h6 hcap]
            have hv := hmg (m.flag - 1)
            have ha := hmg (board.squares.getD m.start 0 - 1)
            split_ifs with hz
            · norm_num
            · have hc2 : mg (m.flag - 1) - mg (board.squares.getD m.start 0 - 1) < 2 ^ 14 := by
                omega
              nlinarith
          · rw [Search.scoreOfMove_capture_lose mg st board ply hashMove m hmg hp he hpr hq h6
              (by omega)]
            have hv := hmg (m.flag - 1)
            have ha := hmg (board.squares.getD m.start 0 - 1)
            omega
    · have hpp := hmg (m.promotionType - 1)
      have h0 := hmg 0
      unfold Search.scoreOfMove
      rw [if_neg hp, if_neg he, if_pos hpr]
      omega
  · intro m hp he hpr h6
    unfold Search.scoreOfMove
    rw [if_neg hp, if_neg he, if_neg (by simp [hpr]),
      if_neg (by rw [h6]; omega), if_pos h6]
  · intro m hp he hpr hq h6 hcap
    rw [Search.scoreOfMove_capture_win mg st board ply hashMove m hmg hp he hpr hq h6 hcap]
    split_ifs with hz
    · norm_num
    · have hc1 : (1 : Int) ≤ mg (m.flag - 1) - mg (board.squares.getD m.start 0 - 1) := by
        omega
      nlinarith
  · intro m hp he hpr hq h6 hcap
    rw [Search.scoreOfMove_capture_lose mg st board ply hashMove m hmg hp he hpr hq h6 hcap]
    omega
  · intro m hp he hpr hq hk
    unfold Search.scoreOfMove
    rw [if_neg hp, if_neg he, if_neg (by simp [hpr]), if_pos hq, if_pos hk]
  · intro m hp he hpr hq hk
    unfold Search.scoreOfMove
    rw [if_neg hp, if_neg he, if_neg (by simp [hpr]), if_pos hq, if_neg hk]
  · intro m hp he hpr
    have hpp := hmg (m.promotionType - 1)
    have h0 := hmg 0
    unfold Search.scoreOfMove
    rw [if_neg hp, if_neg he, if_pos hpr]
    exact ⟨rfl, by omega⟩

theorem claim_C7_ordering_amended_witness :
    Search.scoreOfMove mgTest stPVTest boardC7Test 0 ⟨62, 62, 0, 0⟩ ⟨4, 6, 6, 0⟩ = 2 ^ 16 :=
  (claim_C7_ordering_amended mgTest stPVTest boardC7Test 0 ⟨62, 62, 0, 0⟩
    (by intro i; unfold mgTest; split_ifs <;> norm_num)
    (by intro c a b; unfold stPVTest; norm_num)).2.2.2.2.1
    ⟨4, 6, 6, 0⟩ (by decide) (by decide) rfl rfl

/-- Modelled from the spec: flip the side-to-move colour (two colours, coded
0 and 1; `invertColor` lives in a header outside `src/`). -/
def invertColor (c : Nat) : Nat := 1 - c

/-- The external collaborators consumed by the search (spec section 6): move
generation, check detection, static evaluation, move application/undo, and
the evaluator's per-piece material table. -/
structure SearchExt where
  pseudoLegalMoves : ChessBoard → List Move
  tacticalMoves : ChessBoard → List Move
  inCheck : ChessBoard → Nat → Bool
  evaluate : ChessBoard → Int
  makeMove : ChessBoard → Move → ChessBoard
  unMakeMove : ChessBoard → ChessBoard
  mg : Nat → Int

/-- `Search::scoreTacticalMoves`: hash move first, promotions by promoted
material minus pawn, captures by victim minus aggressor. -/
def Search.scoreTacticalMoves (mg : Nat → Int) (board : ChessBoard)
    (moves : List Move) (hashMove : Move) : List ScoredMove :=
  moves.map fun move =>
    ⟨move,
      if move = hashMove then 2 ^ 30
      else if move.promotionType ≠ 0 then mg (move.promotionType - 1) - mg 0
      else mg (move.flag - 1) - mg (board.squares.getD move.start 0 - 1)⟩

/-- The inner scan of `Search::selectMove`: from position `i` on (with `rem`
entries left to inspect, so the recursion is structural), find the index of
the first maximal score (later entries replace only on a strictly greater
score). -/
def Search.selectScan (moves : List ScoredMove) (rem : Nat) (i : Nat) (selIdx : Nat)
    (maxScore : Int) : Nat :=
  match rem with
  | 0 => selIdx
  | rem + 1 =>
    let mi := moves.getD i ⟨NULL_MOVE, 0⟩
    if mi.score > maxScore then Search.selectScan moves rem (i + 1) i mi.score
    else Search.selectScan moves rem (i + 1) selIdx maxScore

/-- `Search::selectMove`: partial selection sort step — swap the highest
remaining score into position `index` and return that move together with the
updated list. -/
def Search.selectMove (moves : List ScoredMove) (index : Nat) : Move × List ScoredMove :=
  let selIdx := Search.selectScan moves (moves.length - (index + 1)) (index + 1) index
    (moves.getD index ⟨NULL_MOVE, 0⟩).score
  let selected := moves.getD selIdx ⟨NULL_MOVE, 0⟩
  let moves1 := moves.set selIdx (moves.getD index ⟨NULL_MOVE, 0⟩)
  (selected.move, moves1.set index selected)

/-- `Search::storeKillerMove`: remember a quiet, non-promoting cutoff move in
one of the two killer slots for the ply, round-robin. -/
def Search.storeKillerMove (st : SearchState) (move : Move) (ply : Nat) : SearchState :=
  if (move.flag = 0 ∨ 7 ≤ move.flag) ∧ move.promotionType = 0 then
    if move = (st.killerMoves ply).1 then st
    else if move = (st.killerMoves ply).2 then st
    else if st.killerMoveIndexOne ∨ (st.killerMoves ply).1 = NULL_MOVE then
      { st with
        killerMoves := fun p => if p = ply then (move, (st.killerMoves p).2) else st.killerMoves p
        killerMoveIndexOne := false }
    else
      { st with
        killerMoves := fun p => if p = ply then ((st.killerMoves p).1, move) else st.killerMoves p
        killerMoveIndexOne := true }
  else st

/-- The history-table bump `history[side][start][end] += depth * depth`
performed on a quiet beta cutoff. -/
def Search.bumpHistory (st : SearchState) (c a b : Nat) (d : Int) : SearchState :=
  { st with
    history := fun c' a' b' =>
      if c' = c ∧ a' = a ∧ b' = b then st.history c' a' b' + d else st.history c' a' b' }

/-- The loop-continuation condition of the threefold scan: the vector of
irreversible indices is empty, or its last element lies strictly below `j`. -/
def Search.repScanCond (irrevLast : Option Int) (j : Int) : Bool :=
  match irrevLast with
  | none => true
  | some b => decide (b < j)

/-- The backward scan of the threefold-repetition loop in `Search::alphaBeta`:
walk the index `j` (a natural number, so `j >= 0` holds by construction and
the step from `j + 2` to `j` is structural) down in steps of 2 while `j` is
strictly beyond the last irreversible index, counting occurrences of the
current hash; report a draw as soon as the count reaches 2, and stop when the
next index would be negative. -/
def Search.repScan (hist : List Int) (hash : Int) (irrevLast : Option Int) :
    Nat → Nat → Bool
  | 0, reps =>
    if Search.repScanCond irrevLast ((0 : Nat) : Int) then
      (if (if hist.getD 0 0 = hash then reps + 1 else reps) = 2 then true else false)
    else false
  | 1, reps =>
    if Search.repScanCond irrevLast ((1 : Nat) : Int) then
      (if (if hist.getD 1 0 = hash then reps + 1 else reps) = 2 then true else false)
    else false
  | (j + 2), reps =>
    if Search.repScanCond irrevLast ((j + 2 : Nat) : Int) then
      let reps2 := if hist.getD (j + 2) 0 = hash then reps + 1 else reps
      if reps2 = 2 then true
      else Search.repScan hist hash irrevLast j reps2
    else false

/-- The threefold-repetition test applied to the position after a move:
start the scan at `positionHistory.size() - 4` with one repetition counted
(no iteration runs when the history holds fewer than 4 entries, mirroring the
`j >= 0` guard on the signed start index). -/
def Search.isThreefold (board : ChessBoard) : Bool :=
  if board.positionHistory.length < 4 then false
  else
    Search.repScan board.positionHistory board.hashCode
      board.irreversibleIndices.getLast? (board.positionHistory.length - 4) 1

/-- The fifty-move-rule test of `Search::alphaBeta`, evaluated on the position
after the move: half-move clock at 100 or more, and the move is neither a
pawn move (`squares[move.start].type == PAWN`, read after the move) nor a
capture (flags 1..5). -/
def Search.fiftyMoveDraw (board2 : ChessBoard) (move : Move) : Bool :=
  decide (100 ≤ board2.halfMoveClock) &&
    !(decide (board2.squares.getD move.start 0 = PAWN) ||
      decide (1 ≤ move.flag ∧ move.flag ≤ 5))

/-- The per-move draw decision of `Search::alphaBeta` (fifty-move rule first,
then the threefold scan): returns `(draw, threefold)`. -/
def Search.drawCheck (board2 : ChessBoard) (move : Move) : Bool × Bool :=
  if Search.fiftyMoveDraw board2 move then (true, false)
  else if Search.isThreefold board2 then (true, true)
  else (false, false)

mutual

/-- `Search::quiesce` (fuel-bounded; `none` means the fuel ran out, which a
real run never does): stand-pat evaluation first, beta cutoff, alpha raise,
delta pruning against a queen's value, cache probe, then the capture loop. -/
def Search.quiesce (ext : SearchExt) (stop : Bool) (fuel : Nat) (board : ChessBoard)
    (tt : TranspositionTable) (alpha beta : Int) (ply : Nat) (depth : Int) :
    Option (Int × ChessBoard × TranspositionTable) :=
  match fuel with
  | 0 => none
  | fuel + 1 =>
    if stop then some (0, board, tt)
    else
      let stand_pat := ext.evaluate board
      if stand_pat ≥ beta then some (beta, board, tt)
      else
        let alpha := if alpha < stand_pat then stand_pat else alpha
        if stand_pat + ext.mg (QUEEN - 1) < alpha then some (alpha, board, tt)
        else
          let pr := Search.getTransposition tt board.hashCode depth (ply : Int) 0 alpha beta
            NULL_MOVE
          if pr.hit then some (pr.score, board, pr.tt)
          else
            let moves := Search.scoreTacticalMoves ext.mg board (ext.tacticalMoves board)
              pr.hashMove
            Search.quiesceLoop ext stop fuel board pr.tt pr.alpha pr.beta ply depth moves 0
              TranspositionTable.NodeType.UPPERBOUND NULL_MOVE (-(2 ^ 31))
termination_by structural fuel

/-- The capture loop of `Search::quiesce` (source lines 187..216): select each
scored move in turn, skip moves leaving the own king in check, recurse
negated, and apply cutoff / best-score bookkeeping; at loop exit store the
entry and return `alpha`. -/
def Search.quiesceLoop (ext : SearchExt) (stop : Bool) (fuel : Nat) (board : ChessBoard)
    (tt : TranspositionTable) (alpha beta : Int) (ply : Nat) (depth : Int)
    (moves : List ScoredMove) (i : Nat) (nodeType : TranspositionTable.NodeType)
    (bestMove : Move) (bestScore : Int) :
    Option (Int × ChessBoard × TranspositionTable) :=
  match fuel with
  | 0 => none
  | fuel + 1 =>
    if i < moves.length then
      let sel := Search.selectMove moves i
      let move := sel.1
      let moves2 := sel.2
      let board2 := ext.makeMove board move
      if ext.inCheck board2 (invertColor board2.sideToMove) then
        Search.quiesceLoop ext stop fuel (ext.unMakeMove board2) tt alpha beta ply depth moves2
          (i + 1) nodeType bestMove bestScore
      else
        match Search.quiesce ext stop fuel board2 tt (-beta) (-alpha) (ply + 1) (depth - 1) with
        | none => none
        | some (s0, board3, tt3) =>
          let score := -s0
          let board4 := ext.unMakeMove board3
          if stop then some (0, board4, tt3)
          else if score ≥ beta then
            some (score, board4,
              tt3.setEntry board4.hashCode
                ⟨board4.hashCode, move, depth, score, TranspositionTable.NodeType.LOWERBOUND⟩
                (ply : Int))
          else if score > alpha then
            Search.quiesceLoop ext stop fuel board4 tt3 score beta ply depth moves2 (i + 1)
              TranspositionTable.NodeType.EXACT move score
          else if score > bestScore then
            Search.quiesceLoop ext stop fuel board4 tt3 alpha beta ply depth moves2 (i + 1)
              nodeType move score
          else
            Search.quiesceLoop ext stop fuel board4 tt3 alpha beta ply depth moves2 (i + 1)
              nodeType bestMove bestScore
    else
      some (alpha, board,
        tt.setEntry board.hashCode ⟨board.hashCode, bestMove, depth, bestScore, nodeType⟩
          (ply : Int))
termination_by structural fuel

/-- `Search::alphaBeta` (fuel-bounded): cooperative-stop check, quiescence
delegation at depth 0, cache probe, mate-distance window clamp, move
generation and scoring, then the main move loop. -/
def Search.alphaBeta (ext : SearchExt) (stop : Bool) (fuel : Nat) (board : ChessBoard)
    (st : SearchState) (tt : TranspositionTable) (depth alpha beta : Int) (ply : Nat) :
    Option (Int × ChessBoard × SearchState × TranspositionTable) :=
  match fuel with
  | 0 => none
  | fuel + 1 =>
    if stop then some (0, board, st, tt)
    else if depth = 0 then
      match Search.quiesce ext stop fuel board tt alpha beta ply 0 with
      | none => none
      | some (s, b, t) => some (s, b, st, t)
    else
      let pr := Search.getTransposition tt board.hashCode depth (ply : Int) 0 alpha beta NULL_MOVE
      if pr.hit then some (pr.score, board, st, pr.tt)
      else
        let alpha := max pr.alpha (-MATE_SCORE + (ply : Int))
        let beta := min pr.beta (MATE_SCORE - (ply : Int))
        if alpha ≥ beta then some (alpha, board, st, pr.tt)
        else
          let moves := Search.scoreMoves ext.mg st board (ext.pseudoLegalMoves board) ply
            pr.hashMove
          Search.abLoop ext stop fuel board st pr.tt depth alpha beta ply moves 0 false
            TranspositionTable.NodeType.UPPERBOUND NULL_MOVE (-(2 ^ 31)) false
termination_by structural fuel

/-- The move loop of `Search::alphaBeta` (source lines 97..162): select each
scored move, skip illegal ones, decide draws (fifty-move rule, threefold
scan) before recursing, and delegate the per-move aftermath to `abStep`; at
loop exit handle mate/stalemate and the final (possibly suppressed) store. -/
def Search.abLoop (ext : SearchExt) (stop : Bool) (fuel : Nat) (board : ChessBoard)
    (st : SearchState) (tt : TranspositionTable) (depth alpha beta : Int) (ply : Nat)
    (moves : List ScoredMove) (i : Nat) (hasLegalMoves : Bool)
    (nodeType : TranspositionTable.NodeType) (bestMove : Move) (bestScore : Int)
    (noStore : Bool) :
    Option (Int × ChessBoard × SearchState × TranspositionTable) :=
  match fuel with
  | 0 => none
  | fuel + 1 =>
    if i < moves.length then
      let sel := Search.selectMove moves i
      let move := sel.1
      let moves2 := sel.2
      let board2 := ext.makeMove board move
      if ext.inCheck board2 (invertColor board2.sideToMove) then
        Search.abLoop ext stop fuel (ext.unMakeMove board2) st tt depth alpha beta ply moves2
          (i + 1) hasLegalMoves nodeType bestMove bestScore noStore
      else
        let dc := Search.drawCheck board2 move
        if dc.1 then
          Search.abStep ext stop fuel (ext.unMakeMove board2) st tt depth alpha beta ply moves2
            (i + 1) nodeType bestMove bestScore noStore move dc.2 0
        else
          match Search.alphaBeta ext stop fuel board2 st tt (depth - 1) (-beta) (-alpha)
            (ply + 1) with
          | none => none
          | some (s0, board3, st3, tt3) =>
            Search.abStep ext stop fuel (ext.unMakeMove board3) st3 tt3 depth alpha beta ply
              moves2 (i + 1) nodeType bestMove bestScore noStore move dc.2 (-s0)
    else
      if !hasLegalMoves then
        if ext.inCheck board board.sideToMove then
          some (-(MATE_SCORE - (ply : Int)), board, st, tt)
        else some (0, board, st, tt)
      else if !noStore then
        some (alpha, board, st,
          tt.setEntry board.hashCode ⟨board.hashCode, bestMove, depth, bestScore, nodeType⟩
            (ply : Int))
      else some (alpha, board, st, tt)
termination_by structural fuel

/-- The per-move aftermath of the `alphaBeta` loop (source lines 128..153),
entered with the move's score and the board already restored: cooperative
stop, beta cutoff (killer/history bookkeeping and a LOWER_BOUND store that is
suppressed for threefold-draw moves), alpha raise (EXACT best line), and
running best-score tracking (`noStore` mirrors the threefold flag only in the
non-raising branch). -/
def Search.abStep (ext : SearchExt) (stop : Bool) (fuel : Nat) (board : ChessBoard)
    (st : SearchState) (tt : TranspositionTable) (depth alpha beta : Int) (ply : Nat)
    (moves : List ScoredMove) (i : Nat) (nodeType : TranspositionTable.NodeType)
    (bestMove : Move) (bestScore : Int) (noStore : Bool) (move : Move) (threefold : Bool)
    (score : Int) :
    Option (Int × ChessBoard × SearchState × TranspositionTable) :=
  match fuel with
  | 0 => none
  | fuel + 1 =>
    if stop then some (0, board, st, tt)
    else if score ≥ beta then
      let st2 :=
        if move.flag = 0 ∨ 7 ≤ move.flag then
          Search.bumpHistory (Search.storeKillerMove st move ply) board.sideToMove move.start
            move.end_ (depth * depth)
        else st
      let tt2 :=
        if threefold then tt
        else
          tt.setEntry board.hashCode
            ⟨board.hashCode, move, depth, score, TranspositionTable.NodeType.LOWERBOUND⟩
            (ply : Int)
      some (score, board, st2, tt2)
    else if score > alpha then
      Search.abLoop ext stop fuel board st tt depth score beta ply moves i true
        TranspositionTable.NodeType.EXACT move score noStore
    else if score > bestScore then
      Search.abLoop ext stop fuel board st tt depth alpha beta ply moves i true nodeType move
        score threefold
    else
      Search.abLoop ext stop fuel board st tt depth alpha beta ply moves i true nodeType
        bestMove bestScore noStore
termination_by structural fuel

end

theorem Search.quiesce_restore_succ (ext : SearchExt) (stop : Bool) (n : Nat)
    (IHloop : ∀ board tt alpha beta ply depth moves i nt bm bs s b t,
      Search.quiesceLoop ext stop n board tt alpha beta ply depth moves i nt bm bs
        = some (s, b, t) → b = board) :
    ∀ board tt alpha beta ply depth s b t,
      Search.quiesce ext stop (n + 1) board tt alpha beta ply depth = some (s, b, t) →
        b = board := by
  intro board tt alpha beta ply depth s b t h
  simp only [Search.quiesce] at h
  split_ifs at h
  all_goals first
    | exact IHloop _ _ _ _ _ _ _ _ _ _ _ _ _ _ h
    | (simp only [Option.some.injEq, Prod.mk.injEq] at h
       exact h.2.1.symm)

theorem Search.quiesceLoop_restore_succ (ext : SearchExt)
    (hlifo : ∀ b m, ext.unMakeMove (ext.makeMove b m) = b) (stop : Bool) (n : Nat)
    (IHq : ∀ board tt alpha beta ply depth s b t,
      Search.quiesce ext stop n board tt alpha beta ply depth = some (s, b, t) → b = board)
    (IHloop : ∀ board tt alpha beta ply depth moves i nt bm bs s b t,
      Search.quiesceLoop ext stop n board tt alpha beta ply depth moves i nt bm bs
        = some (s, b, t) → b = board) :
    ∀ board tt alpha beta ply depth moves i nt bm bs s b t,
      Search.quiesceLoop ext stop (n + 1) board tt alpha beta ply depth moves i nt bm bs
        = some (s, b, t) → b = board := by
  intro board tt alpha beta ply depth moves i nt bm bs s b t h
  simp only [Search.quiesceLoop] at h
  split at h
  · split at h
    · have hb := IHloop _ _ _ _ _ _ _ _ _ _ _ _ _ _ h
      rw [hb, hlifo]
    · split at h
      · exact absurd h (by simp)
      · rename_i s0 board3 tt3 heq
        have hb3 := IHq _ _ _ _ _ _ _ _ _ heq
        split_ifs at h
        all_goals first
          | (have hb := IHloop _ _ _ _ _ _ _ _ _ _ _ _ _ _ h
             rw [hb, hb3, hlifo])
          | (simp only [Option.some.injEq, Prod.mk.injEq] at h
             rw [← h.2.1, hb3, hlifo])
  · simp only [Option.some.injEq, Prod.mk.injEq] at h
    exact h.2.1.symm

theorem Search.alphaBeta_restore_succ (ext : SearchExt) (stop : Bool) (n : Nat)
    (IHq : ∀ board tt alpha beta ply depth s b t,
      Search.quiesce ext stop n board tt alpha beta ply depth = some (s, b, t) → b = board)
    (IHal : ∀ board st tt depth alpha beta ply moves i hl nt bm bs ns s b st2 t,
      Search.abLoop ext stop n board st tt depth alpha beta ply moves i hl nt bm bs ns
        = some (s, b, st2, t) → b = board) :
    ∀ board st tt depth alpha beta ply s b st2 t,
      Search.alphaBeta ext stop (n + 1) board st tt depth alpha beta ply
        = some (s, b, st2, t) → b = board := by
  intro board st tt depth alpha beta ply s b st2 t h
  simp only [Search.alphaBeta] at h
  split at h
  · simp only [Option.some.injEq, Prod.mk.injEq] at h
    exact h.2.1.symm
  · split at h
    · split at h
      · exact absurd h (by simp)
      · rename_i s2 b2 t2 heq
        simp only [Option.some.injEq, Prod.mk.injEq] at h
        rw [← h.2.1]
        exact IHq _ _ _ _ _ _ _ _ _ heq
    · split_ifs at h
      all_goals first
        | exact IHal _ _ _ _ _ _ _ _ _ _ _ _ _ _ _ _ _ _ h
        | (simp only [Option.some.injEq, Prod.mk.injEq] at h
           exact h.2.1.symm)

theorem Search.abLoop_restore_succ (ext : SearchExt)
    (hlifo : ∀ b m, ext.unMakeMove (ext.makeMove b m) = b) (stop : Bool) (n : Nat)
    (IHab : ∀ board st tt depth alpha beta ply s b st2 t,
      Search.alphaBeta ext stop n board st tt depth alpha beta ply
        = some (s, b, st2, t) → b = board)
    (IHal : ∀ board st tt depth alpha beta ply moves i hl nt bm bs ns s b st2 t,
      Search.abLoop ext stop n board st tt depth alpha beta ply moves i hl nt bm bs ns
        = some (s, b, st2, t) → b = board)
    (IHst : ∀ board st tt depth alpha beta ply moves i nt bm bs ns mv tf sc s b st2 t,
      Search.abStep ext stop n board st tt depth alpha beta ply moves i nt bm bs ns mv tf sc
        = some (s, b, st2, t) → b = board) :
    ∀ board st tt depth alpha beta ply moves i hl nt bm bs ns s b st2 t,
      Search.abLoop ext stop (n + 1) board st tt depth alpha beta ply moves i hl nt bm bs ns
        = some (s, b, st2, t) → b = board := by
  intro board st tt depth alpha beta ply moves i hl nt bm bs ns s b st2 t h
  simp only [Search.abLoop] at h
  split at h
  · split at h
    · have hb := IHal _ _ _ _ _ _ _ _ _ _ _ _ _ _ _ _ _ _ h
      rw [hb, hlifo]
    · split at h
      · have hb := IHst _ _ _ _ _ _ _ _ _ _ _ _ _ _ _ _ _ _ _ _ h
        rw [hb, hlifo]
      · split at h
        · exact absurd h (by simp)
        · rename_i s0 board3 st3 tt3 heq
          have hb3 := IHab _ _ _ _ _ _ _ _ _ _ _ heq
          have hb := IHst _ _ _ _ _ _ _ _ _ _ _ _ _ _ _ _ _ _ _ _ h
          rw [hb, hb3, hlifo]
  · split_ifs at h
    all_goals
      simp only [Option.some.injEq, Prod.mk.injEq] at h
    all_goals
      exact h.2.1.symm

theorem Search.abStep_restore_succ (ext : SearchExt) (stop : Bool) (n : Nat)
    (IHal : ∀ board st tt depth alpha beta ply moves i hl nt bm bs ns s b st2 t,
      Search.abLoop ext stop n board st tt depth alpha beta ply moves i hl nt bm bs ns
        = some (s, b, st2, t) → b = board) :
    ∀ board st tt depth alpha beta ply moves i nt bm bs ns mv tf sc s b st2 t,
      Search.abStep ext stop (n + 1) board st tt depth alpha beta ply moves i nt bm bs ns mv tf sc
        = some (s, b, st2, t) → b = board := by
  intro board st tt depth alpha beta ply moves i nt bm bs ns mv tf sc s b st2 t h
  simp only [Search.abStep] at h
  split_ifs at h
  all_goals first
    | exact IHal _ _ _ _ _ _ _ _ _ _ _ _ _ _ _ _ _ _ h
    | (simp only [Option.some.injEq, Prod.mk.injEq] at h
       exact h.2.1.symm)

/-- Claim C9: provided undoing a move restores the position (the board
collaborator's LIFO contract), every terminating call to `alphaBeta` and to
`quiesce` returns the board in exactly the state it received, on every
control path — moves rejected for leaving the king in check, draw-scored
moves, beta cutoffs, and cooperative-stop returns included. -/
theorem claim_C9_board_restored (ext : SearchExt)
    (hlifo : ∀ b m, ext.unMakeMove (ext.makeMove b m) = b) (stop : Bool) (fuel : Nat) :
    (∀ board tt alpha beta ply depth s b t,
      Search.quiesce ext stop fuel board tt alpha beta ply depth = some (s, b, t) →
        b = board) ∧
    (∀ board st tt depth alpha beta ply s b st2 t,
      Search.alphaBeta ext stop fuel board st tt depth alpha beta ply = some (s, b, st2, t) →
        b = board) := by
  have main : ∀ fuel : Nat,
      (∀ board tt alpha beta ply depth s b t,
        Search.quiesce ext stop fuel board tt alpha beta ply depth = some (s, b, t) →
          b = board) ∧
      (∀ board tt alpha beta ply depth moves i nt bm bs s b t,
        Search.quiesceLoop ext stop fuel board tt alpha beta ply depth moves i nt bm bs
          = some (s, b, t) → b = board) ∧
      (∀ board st tt depth alpha beta ply s b st2 t,
        Search.alphaBeta ext stop fuel board st tt depth alpha beta ply = some (s, b, st2, t) →
          b = board) ∧
      (∀ board st tt depth alpha beta ply moves i hl nt bm bs ns s b st2 t,
        Search.abLoop ext stop fuel board st tt depth alpha beta ply moves i hl nt bm bs ns
          = some (s, b, st2, t) → b = board) ∧
      (∀ board st tt depth alpha beta ply moves i nt bm bs ns mv tf sc s b st2 t,
        Search.abStep ext stop fuel board st tt depth alpha beta ply moves i nt bm bs ns mv tf sc
          = some (s, b, st2, t) → b = board) := by
    intro fuel
    induction fuel with
    | zero =>
      refine ⟨?_, ?_, ?_, ?_, ?_⟩ <;> intros <;>
        simp_all [Search.quiesce, Search.quiesceLoop, Search.alphaBeta, Search.abLoop,
          Search.abStep]
    | succ n ih =>
      obtain ⟨ihq, ihql, ihab, ihal, ihst⟩ := ih
      exact ⟨Search.quiesce_restore_succ ext stop n ihql,
        Search.quiesceLoop_restore_succ ext hlifo stop n ihq ihql,
        Search.alphaBeta_restore_succ ext stop n ihq ihal,
        Search.abLoop_restore_succ ext hlifo stop n ihab ihal ihst,
        Search.abStep_restore_succ ext stop n ihal⟩
  exact ⟨(main fuel).1, (main fuel).2.2.1⟩

/-- A concrete collaborator for exercising the search: one pseudo-legal move,
no tactical moves, never in check, constant evaluation; applying a move bumps
the hash and pushes the old hash on the history, undoing reverses both. -/
def extC9 : SearchExt :=
  { pseudoLegalMoves := fun _ => [⟨8, 16, 0, 0⟩]
    tacticalMoves := fun _ => []
    inCheck := fun _ _ => false
    evaluate := fun _ => 7
    makeMove := fun b _ =>
      { b with hashCode := b.hashCode + 1, positionHistory := b.hashCode :: b.positionHistory }
    unMakeMove := fun b =>
      { b with hashCode := b.hashCode - 1, positionHistory := b.positionHistory.tail }
    mg := mgTest }

theorem claim_C9_board_restored_witness :
    (Search.alphaBeta extC9 false 8 boardC7Test stPVTest ttEmptyTest 1 (-100) 100 0).map
        (fun r => r.2.1) = some boardC7Test := by
  have hsome : (Search.alphaBeta extC9 false 8 boardC7Test stPVTest ttEmptyTest 1
      (-100) 100 0).isSome = true := rfl
  cases hres : Search.alphaBeta extC9 false 8 boardC7Test stPVTest ttEmptyTest 1
      (-100) 100 0 with
  | none =>
    rw [hres] at hsome
    simp at hsome
  | some r =>
    have hb := (claim_C9_board_restored extC9
      (by intro b2 m; cases b2; simp [extC9]) false 8).2 _ _ _ _ _ _ _
      r.1 r.2.1 r.2.2.1 r.2.2.2 (by rw [hres])
    simp [hb]

/-- Claim C8: in a non-cancelled `quiesce` call the static evaluation is
computed first; if it meets or exceeds beta the call returns `beta` with the
board and table untouched and without consulting the move generator; otherwise
alpha is raised to the stand-pat score if that is higher, and if even the
stand-pat score plus the queen's value (the most valuable capturable piece)
cannot reach the raised alpha, the call returns that alpha, again without
generating any moves (the result is the same for every move generator). -/
theorem claim_C8_quiesce_prune (ext : SearchExt) (fuel : Nat) (board : ChessBoard)
    (tt : TranspositionTable) (alpha beta : Int) (ply : Nat) (depth : Int) :
    (ext.evaluate board ≥ beta →
      ∀ gen, Search.quiesce { ext with tacticalMoves := gen } false (fuel + 1) board tt
        alpha beta ply depth = some (beta, board, tt)) ∧
    (¬ ext.evaluate board ≥ beta →
      ext.evaluate board + ext.mg (QUEEN - 1)
          < (if alpha < ext.evaluate board then ext.evaluate board else alpha) →
      ∀ gen, Search.quiesce { ext with tacticalMoves := gen } false (fuel + 1) board tt
        alpha beta ply depth
        = some (if alpha < ext.evaluate board then ext.evaluate board else alpha, board, tt)) := by
  constructor
  · intro h gen
    simp only [Search.quiesce]
    rw [if_neg (by simp)]
    rw [if_pos h]
  · intro h1 h2 gen
    simp only [Search.quiesce]
    rw [if_neg (by simp)]
    rw [if_neg h1]
    rw [if_pos h2]

theorem claim_C8_quiesce_prune_witness :
    Search.quiesce { extC9 with tacticalMoves := fun _ => [⟨1, 2, 3, 0⟩] } false 3
      boardC7Test ttEmptyTest 0 5 0 0 = some (5, boardC7Test, ttEmptyTest) :=
  (claim_C8_quiesce_prune extC9 2 boardC7Test ttEmptyTest 0 5 0 0).1 (by decide)
    (fun _ => [⟨1, 2, 3, 0⟩])

/-- Claim C6: in the main-search move loop, when the half-move clock has
reached 100 (the clock after a quiet move, read by the code, is its value
before the move plus one) and the explored legal move is neither a pawn move
(per the code's post-move `squares[move.start]` test) nor a capture
(flags 1..5), the move scores exactly 0: the loop proceeds directly to the
per-move aftermath with score 0 and no threefold flag, never recursing into
the resulting position. -/
theorem claim_C6_fifty_move (ext : SearchExt) (stop : Bool) (fuel : Nat) (board : ChessBoard)
    (st : SearchState) (tt : TranspositionTable) (depth alpha beta : Int) (ply : Nat)
    (moves : List ScoredMove) (i : Nat) (hl : Bool) (nt : TranspositionTable.NodeType)
    (bm : Move) (bs : Int) (ns : Bool) (m : Move) (moves2 : List ScoredMove)
    (hi : i < moves.length)
    (hsel : Search.selectMove moves i = (m, moves2))
    (hcontract : (ext.makeMove board m).halfMoveClock = board.halfMoveClock + 1)
    (hclock : 100 ≤ board.halfMoveClock)
    (hpawn : (ext.makeMove board m).squares.getD m.start 0 ≠ PAWN)
    (hcap : ¬ (1 ≤ m.flag ∧ m.flag ≤ 5))
    (hlegal : ext.inCheck (ext.makeMove board m)
      (invertColor (ext.makeMove board m).sideToMove) = false) :
    Search.abLoop ext stop (fuel + 1) board st tt depth alpha beta ply moves i hl nt bm bs ns
      = Search.abStep ext stop fuel (ext.unMakeMove (ext.makeMove board m)) st tt depth alpha
          beta ply moves2 (i + 1) nt bm bs ns m false 0 := by
  have hfifty : Search.fiftyMoveDraw (ext.makeMove board m) m = true := by
    simp only [Search.fiftyMoveDraw, Bool.and_eq_true, decide_eq_true_iff,
      Bool.not_eq_eq_eq_not, Bool.not_true, Bool.or_eq_false_iff, decide_eq_false_iff_not]
    refine ⟨by omega, hpawn, hcap⟩
  have hdc : Search.drawCheck (ext.makeMove board m) m = (true, false) := by
    simp [Search.drawCheck, hfifty]
  simp only [Search.abLoop]
  rw [if_pos hi, hsel]
  simp only [hlegal, Bool.false_eq_true, if_false, hdc]
  rfl

def extC6 : SearchExt :=
  { pseudoLegalMoves := fun _ => [⟨9, 17, 0, 0⟩]
    tacticalMoves := fun _ => []
    inCheck := fun _ _ => false
    evaluate := fun _ => 0
    makeMove := fun b _ => { b with halfMoveClock := b.halfMoveClock + 1 }
    unMakeMove := fun b => { b with halfMoveClock := b.halfMoveClock - 1 }
    mg := mgTest }

def boardC6 : ChessBoard :=
  { hashCode := 0
    halfMoveClock := 100
    squares := []
    positionHistory := []
    irreversibleIndices := []
    sideToMove := 0 }

theorem claim_C6_fifty_move_witness :
    Search.abLoop extC6 false 3 boardC6 stPVTest ttEmptyTest 1 (-100) 100 0
        [⟨⟨9, 17, 0, 0⟩, 0⟩] 0 false TranspositionTable.NodeType.UPPERBOUND NULL_MOVE
        (-(2 ^ 31)) false
      = Search.abStep extC6 false 2 (extC6.unMakeMove (extC6.makeMove boardC6 ⟨9, 17, 0, 0⟩))
          stPVTest ttEmptyTest 1 (-100) 100 0 [⟨⟨9, 17, 0, 0⟩, 0⟩] 1
          TranspositionTable.NodeType.UPPERBOUND NULL_MOVE (-(2 ^ 31)) false ⟨9, 17, 0, 0⟩
          false 0 :=
  claim_C6_fifty_move extC6 false 2 boardC6 stPVTest ttEmptyTest 1 (-100) 100 0
    [⟨⟨9, 17, 0, 0⟩, 0⟩] 0 false TranspositionTable.NodeType.UPPERBOUND NULL_MOVE
    (-(2 ^ 31)) false ⟨9, 17, 0, 0⟩ [⟨⟨9, 17, 0, 0⟩, 0⟩]
    (by decide) (by decide) (by decide) (by decide) (by decide) (by decide) (by decide)

/-- The boundary condition of the repetition scan is monotone: once it holds
at a lower index it holds at any higher one. -/
theorem Search.repScanCond_mono (irrevLast : Option Int) (x y : Int)
    (hxy : x ≤ y) (hx : Search.repScanCond irrevLast x = true) :
    Search.repScanCond irrevLast y = true := by
  cases irrevLast with
  | none => rfl
  | some b =>
    simp only [Search.repScanCond, decide_eq_true_iff] at hx ⊢
    omega

/-- The repetition scan started with one repetition counted reports a draw
exactly when some index of the scanned arithmetic sequence (`j`, `j-2`, ...,
stopping at the irreversible boundary) holds the probed hash. -/
theorem Search.repScan_true_iff (hist : List Int) (hash : Int) (irrevLast : Option Int) :
    ∀ j : Nat, Search.repScan hist hash irrevLast j 1 = true ↔
      ∃ k : Nat, 2 * k ≤ j ∧
        Search.repScanCond irrevLast ((j - 2 * k : Nat) : Int) = true ∧
        hist.getD (j - 2 * k) 0 = hash := by
  intro j
  induction j using Nat.strong_induction_on with
  | _ j ih =>
    match j with
    | 0 =>
      simp only [Search.repScan]
      constructor
      · intro h
        split_ifs at h with h1 h2 h3 <;>
          first
            | exact ⟨0, by omega, by simpa using h1, by simpa using h2⟩
            | omega
            | exact absurd h (by simp)
      · rintro ⟨k, hk, hc, hm⟩
        have hk0 : k = 0 := by omega
        subst hk0
        simp only [Nat.mul_zero, Nat.sub_zero] at hc hm
        rw [if_pos (by simpa using hc), if_pos hm]
        decide
    | 1 =>
      simp only [Search.repScan]
      constructor
      · intro h
        split_ifs at h with h1 h2 h3 <;>
          first
            | exact ⟨0, by omega, by simpa using h1, by simpa using h2⟩
            | omega
            | exact absurd h (by simp)
      · rintro ⟨k, hk, hc, hm⟩
        have hk0 : k = 0 := by omega
        subst hk0
        simp only [Nat.mul_zero, Nat.sub_zero] at hc hm
        rw [if_pos (by simpa using hc), if_pos hm]
        decide
    | (j' + 2) =>
      simp only [Search.repScan]
      by_cases hcond : Search.repScanCond irrevLast ((j' + 2 : Nat) : Int) = true
      · rw [if_pos hcond]
        by_cases hmatch : hist.getD (j' + 2) 0 = hash
        · simp only [hmatch, if_pos rfl]
          constructor
          · intro _
            exact ⟨0, by omega, by simpa using hcond, by simpa using hmatch⟩
          · intro _
            rfl
        · simp only [if_neg hmatch]
          rw [if_neg (by omega)]
          rw [ih j' (by omega)]
          constructor
          · rintro ⟨k, hk, hc, hm⟩
            refine ⟨k + 1, by omega, ?_, ?_⟩
            · have he : j' + 2 - 2 * (k + 1) = j' - 2 * k := by omega
              rw [he]
              exact hc
            · have he : j' + 2 - 2 * (k + 1) = j' - 2 * k := by omega
              rw [he]
              exact hm
          · rintro ⟨k, hk, hc, hm⟩
            match k with
            | 0 =>
              exact absurd (by simpa using hm) hmatch
            | k + 1 =>
              refine ⟨k, by omega, ?_, ?_⟩
              · have he : j' + 2 - 2 * (k + 1) = j' - 2 * k := by omega
                rw [he] at hc
                exact hc
              · have he : j' + 2 - 2 * (k + 1) = j' - 2 * k := by omega
                rw [he] at hm
                exact hm
      · rw [if_neg hcond]
        simp only [Bool.false_eq_true, false_iff]
        rintro ⟨k, hk, hc, -⟩
        exact hcond (Search.repScanCond_mono irrevLast _ _ (by omega) hc)

/-- The threefold test on a position holds exactly when the position hash
recurs at some index of the stack scanned backward in steps of 2 from
`size - 4`, strictly beyond the most recent irreversible-move boundary. -/
theorem Search.isThreefold_iff (board : ChessBoard) :
    Search.isThreefold board = true ↔
      ∃ k : Nat, 4 + 2 * k ≤ board.positionHistory.length ∧
        Search.repScanCond board.irreversibleIndices.getLast?
          ((board.positionHistory.length - 4 - 2 * k : Nat) : Int) = true ∧
        board.positionHistory.getD (board.positionHistory.length - 4 - 2 * k) 0
          = board.hashCode := by
  unfold Search.isThreefold
  by_cases hlen : board.positionHistory.length < 4
  · rw [if_pos hlen]
    simp only [Bool.false_eq_true, false_iff]
    rintro ⟨k, hk, -, -⟩
    omega
  · rw [if_neg hlen, Search.repScan_true_iff]
    constructor
    · rintro ⟨k, hk, hc, hm⟩
      exact ⟨k, by omega, hc, hm⟩
    · rintro ⟨k, hk, hc, hm⟩
      exact ⟨k, by omega, hc, hm⟩

def boardC5 : ChessBoard :=
  { hashCode := 3
    halfMoveClock := 0
    squares := []
    positionHistory := []
    irreversibleIndices := []
    sideToMove := 0 }

def boardC5after : ChessBoard :=
  { hashCode := 7
    halfMoveClock := 0
    squares := []
    positionHistory := [0, 7, 0, 0, 0]
    irreversibleIndices := []
    sideToMove := 1 }

/-- A collaborator whose single legal move reaches a position that is a
threefold repetition (its hash 7 already sits at index 1 of the history,
scanned from index `5 - 4 = 1`). -/
def extC5 : SearchExt :=
  { pseudoLegalMoves := fun _ => [⟨9, 17, 0, 0⟩]
    tacticalMoves := fun _ => []
    inCheck := fun _ _ => false
    evaluate := fun _ => 0
    makeMove := fun _ _ => boardC5after
    unMakeMove := fun _ => boardC5
    mg := mgTest }

/-- Counterexample to claim C5 as stated: at the root (full window), the only
legal move is a repetition draw, scored 0; 0 beats the clamped alpha, so the
draw move becomes the node's best line with node type EXACT — and the final
cache store is NOT suppressed: the run writes the EXACT entry
`(hash 3, move, depth 1, score 0)` (one table write), even though its value
comes from the repetition-draw branch. -/
theorem claim_C5_counterexample :
    Search.isThreefold (extC5.makeMove boardC5 ⟨9, 17, 0, 0⟩) = true ∧
    (Search.alphaBeta extC5 false 6 boardC5 stPVTest ttEmptyTest 1 (-2147483647)
        2147483647 0).map (fun r => (r.1, (r.2.2.2).entries 3, (r.2.2.2).writes))
      = some (0, ⟨3, ⟨9, 17, 0, 0⟩, 1, 0, TranspositionTable.NodeType.EXACT⟩, 1) := by
  decide

/-- Claim C5, amended: (i) the threefold scan walks the position-history
stack backward in steps of 2 from `size - 4`, stopping at the most recent
irreversible boundary, and fires exactly when the post-move hash recurs in
that range; (ii) such a move scores exactly 0 and the loop proceeds straight
to the aftermath (no recursion), with the threefold flag set; (iii) a beta
cutoff caused by a threefold move returns its score with the table untouched
(the LOWER_BOUND store is suppressed); (iv) a threefold move that improves
the running best without raising alpha records the suppression flag, and
(vi) a loop that ends with that flag set stores nothing; but (v) a move that
raises alpha becomes an EXACT best line with the suppression flag left
unchanged, so an EXACT entry whose value comes from a repetition-draw branch
IS stored (the counterexample exhibits such a store). -/
theorem claim_C5_threefold_amended :
    (∀ board : ChessBoard, Search.isThreefold board = true ↔
      ∃ k : Nat, 4 + 2 * k ≤ board.positionHistory.length ∧
        Search.repScanCond board.irreversibleIndices.getLast?
          ((board.positionHistory.length - 4 - 2 * k : Nat) : Int) = true ∧
        board.positionHistory.getD (board.positionHistory.length - 4 - 2 * k) 0
          = board.hashCode) ∧
    (∀ (ext : SearchExt) (stop : Bool) (fuel : Nat) (board : ChessBoard) (st : SearchState)
        (tt : TranspositionTable) (depth alpha beta : Int) (ply : Nat)
        (moves : List ScoredMove) (i : Nat) (hl : Bool) (nt : TranspositionTable.NodeType)
        (bm : Move) (bs : Int) (ns : Bool) (m : Move) (moves2 : List ScoredMove),
      i < moves.length → Search.selectMove moves i = (m, moves2) →
      ext.inCheck (ext.makeMove board m) (invertColor (ext.makeMove board m).sideToMove)
        = false →
      Search.fiftyMoveDraw (ext.makeMove board m) m = false →
      Search.isThreefold (ext.makeMove board m) = true →
      Search.abLoop ext stop (fuel + 1) board st tt depth alpha beta ply moves i hl nt bm bs ns
        = Search.abStep ext stop fuel (ext.unMakeMove (ext.makeMove board m)) st tt depth
            alpha beta ply moves2 (i + 1) nt bm bs ns m true 0) ∧
    (∀ (ext : SearchExt) (fuel : Nat) (board : ChessBoard) (st : SearchState)
        (tt : TranspositionTable) (depth alpha beta : Int) (ply : Nat)
        (moves : List ScoredMove) (i : Nat) (nt : TranspositionTable.NodeType) (bm : Move)
        (bs : Int) (ns : Bool) (m : Move) (score : Int),
      score ≥ beta →
      (Search.abStep ext false (fuel + 1) board st tt depth alpha beta ply moves i nt bm bs ns
          m true score).map (fun r => (r.1, r.2.2.2)) = some (score, tt)) ∧
    (∀ (ext : SearchExt) (fuel : Nat) (board : ChessBoard) (st : SearchState)
        (tt : TranspositionTable) (depth alpha beta : Int) (ply : Nat)
        (moves : List ScoredMove) (i : Nat) (nt : TranspositionTable.NodeType) (bm : Move)
        (bs : Int) (ns : Bool) (m : Move) (tf : Bool) (score : Int),
      ¬ score ≥ beta → ¬ score > alpha → score > bs →
      Search.abStep ext false (fuel + 1) board st tt depth alpha beta ply moves i nt bm bs ns
          m tf score
        = Search.abLoop ext false fuel board st tt depth alpha beta ply moves i true nt m
            score tf) ∧
    (∀ (ext : SearchExt) (fuel : Nat) (board : ChessBoard) (st : SearchState)
        (tt : TranspositionTable) (depth alpha beta : Int) (ply : Nat)
        (moves : List ScoredMove) (i : Nat) (nt : TranspositionTable.NodeType) (bm : Move)
        (bs : Int) (ns : Bool) (m : Move) (tf : Bool) (score : Int),
      ¬ score ≥ beta → score > alpha →
      Search.abStep ext false (fuel + 1) board st tt depth alpha beta ply moves i nt bm bs ns
          m tf score
        = Search.abLoop ext false fuel board st tt depth score beta ply moves i true
            TranspositionTable.NodeType.EXACT m score ns) ∧
    (∀ (ext : SearchExt) (stop : Bool) (fuel : Nat) (board : ChessBoard) (st : SearchState)
        (tt : TranspositionTable) (depth alpha beta : Int) (ply : Nat)
        (moves : List ScoredMove) (i : Nat) (nt : TranspositionTable.NodeType) (bm : Move)
        (bs : Int),
      ¬ i < moves.length →
      Search.abLoop ext stop (fuel + 1) board st tt depth alpha beta ply moves i true nt bm bs
          true
        = some (alpha, board, st, tt)) := by
  refine ⟨Search.isThreefold_iff, ?_, ?_, ?_, ?_, ?_⟩
  · intro ext stop fuel board st tt depth alpha beta ply moves i hl nt bm bs ns m moves2
      hi hsel hlegal hfifty hthree
    have hdc : Search.drawCheck (ext.makeMove board m) m = (true, true) := by
      simp [Search.drawCheck, hfifty, hthree]
    simp only [Search.abLoop]
    rw [if_pos hi, hsel]
    simp only [hlegal, Bool.false_eq_true, if_false, hdc]
    rfl
  · intro ext fuel board st tt depth alpha beta ply moves i nt bm bs ns m score hscore
    simp only [Search.abStep]
    rw [if_neg (by simp), if_pos hscore]
    simp
  · intro ext fuel board st tt depth alpha beta ply moves i nt bm bs ns m tf score
      h1 h2 h3
    simp only [Search.abStep]
    rw [if_neg (by simp), if_neg h1, if_neg h2, if_pos h3]
  · intro ext fuel board st tt depth alpha beta ply moves i nt bm bs ns m tf score h1 h2
    simp only [Search.abStep]
    rw [if_neg (by simp), if_neg h1, if_pos h2]
  · intro ext stop fuel board st tt depth alpha beta ply moves i nt bm bs hi
    simp only [Search.abLoop]
    rw [if_neg hi]
    rfl

theorem claim_C5_threefold_amended_witness :
    Search.abLoop extC5 false 3 boardC5 stPVTest ttEmptyTest 1 (-65536) 65536 0
        [⟨⟨9, 17, 0, 0⟩, 0⟩] 0 false TranspositionTable.NodeType.UPPERBOUND NULL_MOVE
        (-(2 ^ 31)) false
      = Search.abStep extC5 false 2 (extC5.unMakeMove (extC5.makeMove boardC5 ⟨9, 17, 0, 0⟩))
          stPVTest ttEmptyTest 1 (-65536) 65536 0 [⟨⟨9, 17, 0, 0⟩, 0⟩] 1
          TranspositionTable.NodeType.UPPERBOUND NULL_MOVE (-(2 ^ 31)) false ⟨9, 17, 0, 0⟩
          true 0 :=
  claim_C5_threefold_amended.2.1 extC5 false 2 boardC5 stPVTest ttEmptyTest 1 (-65536) 65536 0
    [⟨⟨9, 17, 0, 0⟩, 0⟩] 0 false TranspositionTable.NodeType.UPPERBOUND NULL_MOVE
    (-(2 ^ 31)) false ⟨9, 17, 0, 0⟩ [⟨⟨9, 17, 0, 0⟩, 0⟩]
    (by decide) (by decide) (by decide) (by decide) (by decide)

/-- The fate of one move in the abstract game-tree model: rejected as
illegal (it leaves the own king in check), an immediate draw (fifty-move rule
or threefold repetition, the latter flagged), or a transition to a successor
position. -/
inductive GChild (Pos : Type) where
  | illegal
  | draw (threefold : Bool)
  | next (p : Pos)
deriving DecidableEq, Repr

/-- An abstract finite game tree, as seen by one `alphaBeta` iteration: per
position a leaf evaluation (standing in for the quiescence value at the
horizon), a check flag, the generated move list with each move's fate, and a
position hash for the cache. -/
structure Game (Pos : Type) where
  eval : Pos → Int
  inCheck : Pos → Bool
  moves : Pos → List (Move × GChild Pos)
  hash : Pos → Int

/-- What a tree-level search returns: the score, and the best move and node
type as the function would store them in the cache on normal exit. -/
structure ABR where
  score : Int
  best : Move
  node : TranspositionTable.NodeType
deriving DecidableEq, Repr

/-- The move loop of `alphaBeta` on the abstract tree with the cache
disabled — the comparison model for the cache-carrying `abTTLoop`, since the
counterexample shows the cache stores can change the score: `child` performs
the recursive search of a successor with the given window, illegal moves are
skipped, draw moves score 0, and cutoff / alpha-raise / best-score
bookkeeping matches source lines 97..162. -/
def abTLoop {Pos : Type} (g : Game Pos) (child : Int → Int → Pos → Int) (ply : Nat)
    (beta : Int) (p : Pos) :
    List (Move × GChild Pos) → Int → Bool → Move → Int →
      TranspositionTable.NodeType → ABR
  | [], alpha, hasLegal, best, bestScore, node =>
    if !hasLegal then
      if g.inCheck p then ⟨-(MATE_SCORE - (ply : Int)), NULL_MOVE,
        TranspositionTable.NodeType.UPPERBOUND⟩
      else ⟨0, NULL_MOVE, TranspositionTable.NodeType.UPPERBOUND⟩
    else ⟨alpha, best, node⟩
  | (m, GChild.illegal) :: rest, alpha, hasLegal, best, bestScore, node =>
    abTLoop g child ply beta p rest alpha hasLegal best bestScore node
  | (m, GChild.draw _) :: rest, alpha, hasLegal, best, bestScore, node =>
    if (0 : Int) ≥ beta then ⟨0, m, TranspositionTable.NodeType.LOWERBOUND⟩
    else if (0 : Int) > alpha then
      abTLoop g child ply beta p rest 0 true m 0 TranspositionTable.NodeType.EXACT
    else if (0 : Int) > bestScore then
      abTLoop g child ply beta p rest alpha true m 0 node
    else abTLoop g child ply beta p rest alpha true best bestScore node
  | (m, GChild.next q) :: rest, alpha, hasLegal, best, bestScore, node =>
    let score := -(child (-beta) (-alpha) q)
    if score ≥ beta then ⟨score, m, TranspositionTable.NodeType.LOWERBOUND⟩
    else if score > alpha then
      abTLoop g child ply beta p rest score true m score TranspositionTable.NodeType.EXACT
    else if score > bestScore then
      abTLoop g child ply beta p rest alpha true m score node
    else abTLoop g child ply beta p rest alpha true best bestScore node

/-- `alphaBeta` on the abstract game tree with the cache disabled (stop
never set, as the claim assumes) — the cacheless limit of the faithful
cache-carrying `abTT`, with which it agrees exactly when no probe can hit:
depth 0 yields the leaf oracle, otherwise clamp the window to the mate
distance, return early on an empty window, and run the move loop over the
reordered move list (`reorder` abstracts the scoring-plus-selection
ordering; only that it permutes the list matters). -/
def abT {Pos : Type} (g : Game Pos)
    (reorder : Pos → List (Move × GChild Pos) → List (Move × GChild Pos)) :
    Nat → Nat → Int → Int → Pos → ABR
  | 0, _, _, _, p => ⟨g.eval p, NULL_MOVE, TranspositionTable.NodeType.EXACT⟩
  | d + 1, ply, alpha, beta, p =>
    let alpha2 := max alpha (-MATE_SCORE + (ply : Int))
    let beta2 := min beta (MATE_SCORE - (ply : Int))
    if alpha2 ≥ beta2 then ⟨alpha2, NULL_MOVE, TranspositionTable.NodeType.UPPERBOUND⟩
    else
      abTLoop g (fun a b q => (abT g reorder d (ply + 1) a b q).score) ply beta2 p
        (reorder p (g.moves p)) alpha2 false NULL_MOVE (-(2 ^ 31))
        TranspositionTable.NodeType.UPPERBOUND
termination_by structural d _ _ _ _ => d

/-- Is a move fate `illegal`? -/
def GChild.isIllegal {Pos : Type} : GChild Pos → Bool
  | GChild.illegal => true
  | _ => false

/-- The legality-filtered move list. -/
def legalChildren {Pos : Type} (l : List (Move × GChild Pos)) : List (Move × GChild Pos) :=
  l.filter (fun mc => ! mc.2.isIllegal)

/-- Modelled from the spec: the value one legal move contributes to
exhaustive minimax — 0 for an immediate draw, the negated value of the
successor otherwise (`mmd` evaluates successors one level deeper). -/
def childVal {Pos : Type} (mmd : Pos → Int) : GChild Pos → Int
  | GChild.illegal => 0
  | GChild.draw _ => 0
  | GChild.next q => -(mmd q)

/-- Maximum of `f` over `c :: rest`, folded left as exhaustive search visits
the moves in their generated order. -/
def listMaxVal {α : Type} (f : α → Int) (c : α) (rest : List α) : Int :=
  rest.foldl (fun acc x => max acc (f x)) (f c)

/-- Modelled from the spec: exhaustive minimax search of the same tree — the
leaf oracle at depth 0, mate `-(MATE_VALUE - ply)` when no legal move exists
and the side to move is in check, stalemate 0, and otherwise the maximum of
the legal moves' values. -/
def minimax {Pos : Type} (g : Game Pos) : Nat → Nat → Pos → Int
  | 0, _, p => g.eval p
  | d + 1, ply, p =>
    match legalChildren (g.moves p) with
    | [] => if g.inCheck p then -(MATE_SCORE - (ply : Int)) else 0
    | c :: rest =>
      listMaxVal (fun mc => childVal (fun q => minimax g d (ply + 1) q) mc.2) c rest
termination_by structural d _ _ => d

/-- The first element of a list whose `f`-value equals `v`. -/
def firstAtMax {α : Type} (f : α → Int) (v : Int) : List α → Option α
  | [] => none
  | x :: rest => if f x = v then some x else firstAtMax f v rest

/-- Modelled from the spec: the move an exhaustive minimax search chooses — 
the first legal move (in generated order) attaining the minimax value. -/
def minimaxMove {Pos : Type} (g : Game Pos) : Nat → Nat → Pos → Option Move
  | 0, _, _ => none
  | d + 1, ply, p =>
    (firstAtMax (fun mc => childVal (fun q => minimax g d (ply + 1) q) mc.2)
      (minimax g (d + 1) ply p) (legalChildren (g.moves p))).map (fun mc => mc.1)

/-- A two-move game tree with both moves leading to value-0 leaves (positions
named by numbers; the root is 0). -/
def gC1 : Game Nat :=
  { eval := fun _ => 0
    inCheck := fun _ => false
    moves := fun p =>
      if p = 0 then [(⟨0, 1, 0, 0⟩, GChild.next 1), (⟨0, 2, 0, 0⟩, GChild.next 2)]
      else []
    hash := fun p => (p : Int) }

/-- A move ordering that reverses the root's move list (as killer/history
heuristics can) and leaves other nodes alone. -/
def reorderSwap : Nat → List (Move × GChild Nat) → List (Move × GChild Nat) :=
  fun p l => if p = 0 then l.reverse else l

/-- The move loop of `alphaBeta` on the abstract tree WITH the cache (source
lines 97..162): like `abTLoop` but threading the transposition table through
the recursive child searches, storing a LOWERBOUND entry on every beta cutoff
unless the cutoff move was a threefold-repetition draw, tracking `noStore`
exactly as the source does (set to the move's threefold flag on a best-score
improvement that does not raise alpha), and performing the node's final store
when `noStore` is clear. The killer/history updates on a quiet cutoff touch
only the move-ordering state, which the `reorder` abstraction already
covers. -/
def abTTLoop {Pos : Type} (g : Game Pos)
    (child : Int → Int → Pos → TranspositionTable → Int × TranspositionTable)
    (depth : Int) (ply : Nat) (beta : Int) (p : Pos) :
    List (Move × GChild Pos) → Int → Bool → Move → Int →
      TranspositionTable.NodeType → Bool → TranspositionTable →
      Int × TranspositionTable
  | [], alpha, hasLegal, best, bestScore, node, noStore, tt =>
    if !hasLegal then
      if g.inCheck p then (-(MATE_SCORE - (ply : Int)), tt) else (0, tt)
    else
      (alpha,
        if !noStore then
          tt.setEntry (g.hash p) ⟨g.hash p, best, depth, bestScore, node⟩ (ply : Int)
        else tt)
  | (m, GChild.illegal) :: rest, alpha, hasLegal, best, bestScore, node, noStore, tt =>
    abTTLoop g child depth ply beta p rest alpha hasLegal best bestScore node noStore tt
  | (m, GChild.draw tf) :: rest, alpha, hasLegal, best, bestScore, node, noStore, tt =>
    if (0 : Int) ≥ beta then
      (0,
        if !tf then
          tt.setEntry (g.hash p)
            ⟨g.hash p, m, depth, 0, TranspositionTable.NodeType.LOWERBOUND⟩ (ply : Int)
        else tt)
    else if (0 : Int) > alpha then
      abTTLoop g child depth ply beta p rest 0 true m 0
        TranspositionTable.NodeType.EXACT noStore tt
    else if (0 : Int) > bestScore then
      abTTLoop g child depth ply beta p rest alpha true m 0 node tf tt
    else abTTLoop g child depth ply beta p rest alpha true best bestScore node noStore tt
  | (m, GChild.next q) :: rest, alpha, hasLegal, best, bestScore, node, noStore, tt =>
    let r := child (-beta) (-alpha) q tt
    let score := -r.1
    if score ≥ beta then
      (score,
        r.2.setEntry (g.hash p)
          ⟨g.hash p, m, depth, score, TranspositionTable.NodeType.LOWERBOUND⟩ (ply : Int))
    else if score > alpha then
      abTTLoop g child depth ply beta p rest score true m score
        TranspositionTable.NodeType.EXACT noStore r.2
    else if score > bestScore then
      abTTLoop g child depth ply beta p rest alpha true m score node false r.2
    else abTTLoop g child depth ply beta p rest alpha true best bestScore node noStore r.2

/-- `alphaBeta` on the abstract game tree WITH the cache (source lines
75..163; stop never set, as the claim assumes; depth 0 stands for the
quiescence value, whose own cache traffic the leaf oracle abstracts): probe
the table through `getTransposition` exactly as the source does, return the
stored score on a usable hit, otherwise clamp the possibly tightened window
and run the cache-threading move loop. The probe's hash-move ordering hint
only reorders moves, which the `reorder` abstraction covers. -/
def abTT {Pos : Type} (g : Game Pos)
    (reorder : Pos → List (Move × GChild Pos) → List (Move × GChild Pos)) :
    Nat → Nat → Int → Int → Pos → TranspositionTable → Int × TranspositionTable
  | 0, _, _, _, p, tt => (g.eval p, tt)
  | d + 1, ply, alpha, beta, p, tt =>
    let pr := Search.getTransposition tt (g.hash p) ((d : Int) + 1) (ply : Int)
      0 alpha beta NULL_MOVE
    if pr.hit then (pr.score, pr.tt)
    else
      let alpha2 := max pr.alpha (-MATE_SCORE + (ply : Int))
      let beta2 := min pr.beta (MATE_SCORE - (ply : Int))
      if alpha2 ≥ beta2 then (alpha2, pr.tt)
      else
        abTTLoop g (fun a b q tt2 => abTT g reorder d (ply + 1) a b q tt2)
          ((d : Int) + 1) ply beta2 p (reorder p (g.moves p)) alpha2 false NULL_MOVE
          (-(2 ^ 31)) TranspositionTable.NodeType.UPPERBOUND false pr.tt
termination_by structural d _ _ _ _ _ => d

/-- The hashes contributed by a move list: each legal successor searched at
positive remaining depth contributes its subtree via `f`. -/
def childHashes {Pos : Type} (f : Pos → List Int) :
    List (Move × GChild Pos) → List Int
  | [] => []
  | (_, GChild.illegal) :: rest => childHashes f rest
  | (_, GChild.draw _) :: rest => childHashes f rest
  | (_, GChild.next q) :: rest => f q ++ childHashes f rest

/-- The hashes of the positions a depth-`d` search of `p` probes and can
store: the node itself and, recursively, the legal successors searched at
positive remaining depth, in visiting order (depth-0 leaves never touch the
table). -/
def hashList {Pos : Type} (g : Game Pos)
    (reorder : Pos → List (Move × GChild Pos) → List (Move × GChild Pos)) :
    Nat → Pos → List Int
  | 0, _ => []
  | d + 1, p =>
    g.hash p :: childHashes (fun q => hashList g reorder d q) (reorder p (g.moves p))
termination_by structural d _ => d

/-- A game tree with a transposition reached at two different remaining
depths: position 2 is both a direct child of the root (searched at depth 2)
and the grandchild through position 1 (searched at depth 1), and its depth-2
value 7 differs from its depth-1 value -5. -/
def gTT : Game Nat :=
  { eval := fun p => if p = 3 then 5 else if p = 4 then 7 else 0
    inCheck := fun _ => false
    moves := fun p =>
      if p = 0 then [(⟨0, 2, 0, 0⟩, GChild.next 2), (⟨0, 1, 0, 0⟩, GChild.next 1)]
      else if p = 1 then [(⟨1, 2, 0, 0⟩, GChild.next 2)]
      else if p = 2 then [(⟨2, 3, 0, 0⟩, GChild.next 3)]
      else if p = 3 then [(⟨3, 4, 0, 0⟩, GChild.next 4)]
      else []
    hash := fun p => (p : Int) + 100 }

/-- A one-move game tree whose leaf evaluation lies outside the mate window,
so the window clamp of lines 83..85 caps the score the search can return. -/
def gClamp : Game Nat :=
  { eval := fun p => if p = 1 then 65546 else 0
    inCheck := fun _ => false
    moves := fun p => if p = 0 then [(⟨0, 1, 0, 0⟩, GChild.next 1)] else []
    hash := fun p => (p : Int) + 100 }

/-- Counterexample to claim C1 as stated, in three parts. (1) On a tree whose
two root moves tie at value 0, the pruned search under a (heuristic)
reordering returns the same score as exhaustive minimax but chooses the other
optimal move — move ordering does change the chosen best move. (2) On a tree
where position 2 is reachable both at remaining depth 2 and at remaining
depth 1, the cache-carrying search `abTT`, started from an empty table,
stores position 2 at depth 2 and later answers the depth-1 probe with the
deeper score (the depth gate accepts deeper entries), returning root score 7
where exhaustive minimax of the same tree gives -5 — cache probing does
change even the score. (3) With a leaf evaluation outside the mate window,
the clamp of lines 83..85 caps the returned score at -MATE_SCORE while
minimax returns the true value — so score equivalence needs in-window leaf
evaluations. -/
theorem claim_C1_counterexample :
    ((abT gC1 reorderSwap 1 0 (-2147483647) 2147483647 0).score = minimax gC1 1 0 0 ∧
      minimaxMove gC1 1 0 0 = some ⟨0, 1, 0, 0⟩ ∧
      (abT gC1 reorderSwap 1 0 (-2147483647) 2147483647 0).best = ⟨0, 2, 0, 0⟩ ∧
      some (abT gC1 reorderSwap 1 0 (-2147483647) 2147483647 0).best
        ≠ minimaxMove gC1 1 0 0) ∧
    ((abTT gTT (fun _ l => l) 3 0 (-2147483647) 2147483647 0 ttEmptyTest).1 = 7 ∧
      (abT gTT (fun _ l => l) 3 0 (-2147483647) 2147483647 0).score = -5 ∧
      minimax gTT 3 0 0 = -5 ∧
      (abTT gTT (fun _ l => l) 3 0 (-2147483647) 2147483647 0 ttEmptyTest).1
        ≠ minimax gTT 3 0 0) ∧
    ((abT gClamp (fun _ l => l) 1 0 (-2147483647) 2147483647 0).score = -65536 ∧
      minimax gClamp 1 0 0 = -65546) := by
  decide

theorem foldlMax_ge_init {α : Type} (f : α → Int) :
    ∀ (l : List α) (acc : Int), acc ≤ l.foldl (fun a x => max a (f x)) acc := by
  intro l
  induction l with
  | nil => intro acc; simp
  | cons y rest ih =>
    intro acc
    calc acc ≤ max acc (f y) := le_max_left _ _
    _ ≤ rest.foldl (fun a x => max a (f x)) (max acc (f y)) := ih _

theorem foldlMax_ge_mem {α : Type} (f : α → Int) :
    ∀ (l : List α) (acc : Int) (x : α), x ∈ l → f x ≤ l.foldl (fun a x => max a (f x)) acc := by
  intro l
  induction l with
  | nil => intro acc x hx; simp at hx
  | cons y rest ih =>
    intro acc x hx
    rcases List.mem_cons.mp hx with h | h
    · subst h
      calc f x ≤ max acc (f x) := le_max_right _ _
      _ ≤ rest.foldl (fun a x => max a (f x)) (max acc (f x)) := foldlMax_ge_init f rest _
    · exact ih _ x h

theorem foldlMax_cases {α : Type} (f : α → Int) :
    ∀ (l : List α) (acc : Int),
      l.foldl (fun a x => max a (f x)) acc = acc ∨
      ∃ x ∈ l, l.foldl (fun a x => max a (f x)) acc = f x := by
  intro l
  induction l with
  | nil => intro acc; left; rfl
  | cons y rest ih =>
    intro acc
    rcases ih (max acc (f y)) with h | ⟨x, hx, h⟩
    · simp only [List.foldl_cons]
      rcases le_total (f y) acc with hle | hle
      · left
        rw [h, max_eq_left hle]
      · right
        exact ⟨y, List.mem_cons_self _ _, by rw [h, max_eq_right hle]⟩
    · right
      exact ⟨x, List.mem_cons_of_mem _ hx, h⟩

/-- `listMaxVal` is attained by some element. -/
theorem listMaxVal_mem {α : Type} (f : α → Int) (c : α) (rest : List α) :
    ∃ x ∈ c :: rest, listMaxVal f c rest = f x := by
  unfold listMaxVal
  rcases foldlMax_cases f rest (f c) with h | ⟨x, hx, h⟩
  · exact ⟨c, List.mem_cons_self _ _, h⟩
  · exact ⟨x, List.mem_cons_of_mem _ hx, h⟩

/-- `listMaxVal` dominates every element. -/
theorem listMaxVal_le {α : Type} (f : α → Int) (c : α) (rest : List α) :
    ∀ x ∈ c :: rest, f x ≤ listMaxVal f c rest := by
  intro x hx
  unfold listMaxVal
  rcases List.mem_cons.mp hx with h | h
  · subst h
    exact foldlMax_ge_init f rest (f x)
  · exact foldlMax_ge_mem f rest (f c) x h

theorem firstAtMax_of_mem {α : Type} (f : α → Int) (v : Int) :
    ∀ (l : List α), (∃ x ∈ l, f x = v) →
      ∃ y, firstAtMax f v l = some y ∧ y ∈ l ∧ f y = v := by
  intro l
  induction l with
  | nil => rintro ⟨x, hx, -⟩; simp at hx
  | cons z rest ih =>
    rintro ⟨x, hx, hfx⟩
    by_cases hz : f z = v
    · exact ⟨z, by simp [firstAtMax, hz], List.mem_cons_self _ _, hz⟩
    · rcases List.mem_cons.mp hx with h | h
      · subst h; exact absurd hfx hz
      · obtain ⟨y, h1, h2, h3⟩ := ih ⟨x, h, hfx⟩
        exact ⟨y, by simp [firstAtMax, hz, h1], List.mem_cons_of_mem _ h2, h3⟩

/-- Bounds on minimax values: when every leaf evaluation is strictly inside
the mate window for horizon `N`, the value at distance `ply` from the root
lies between being mated now and mating next ply. -/
theorem minimax_bounds {Pos : Type} (g : Game Pos) (N : Nat)
    (hN : (N : Int) < MATE_SCORE)
    (hE : ∀ q, -(MATE_SCORE - (N : Int)) < g.eval q ∧ g.eval q < MATE_SCORE - (N : Int)) :
    ∀ d ply p, ply + d ≤ N →
      -(MATE_SCORE - (ply : Int)) ≤ minimax g d ply p ∧
      minimax g d ply p ≤ MATE_SCORE - (ply : Int) - 1 := by
  intro d
  induction d with
  | zero =>
    intro ply p hpd
    have h := hE p
    have hply : (ply : Int) ≤ (N : Int) := by exact_mod_cast (by omega : ply ≤ N)
    simp only [minimax]
    omega
  | succ d ih =>
    intro ply p hpd
    have hply : (ply : Int) + 1 ≤ (N : Int) := by exact_mod_cast (by omega : ply + 1 ≤ N)
    have helem : ∀ mc : Move × GChild Pos,
        -(MATE_SCORE - (ply : Int)) + 1
          ≤ childVal (fun q => minimax g d (ply + 1) q) mc.2 ∧
        childVal (fun q => minimax g d (ply + 1) q) mc.2 ≤ MATE_SCORE - (ply : Int) - 1 := by
      intro mc
      cases mc.2 with
      | illegal => simp only [childVal]; omega
      | draw tf => simp only [childVal]; omega
      | next q =>
        have hq := ih (ply + 1) q (by omega)
        have hcast : ((ply + 1 : Nat) : Int) = (ply : Int) + 1 := by push_cast; ring
        rw [hcast] at hq
        simp only [childVal]
        omega
    cases hleg : legalChildren (g.moves p) with
    | nil =>
      simp only [minimax, hleg]
      split_ifs <;> omega
    | cons c cs =>
      simp only [minimax, hleg]
      obtain ⟨x, hxmem, hxeq⟩ := listMaxVal_mem
        (fun mc => childVal (fun q => minimax g d (ply + 1) q) mc.2) c cs
      have h1 := (helem x).1
      have h2 := (helem x).2
      rw [hxeq]
      omega

theorem legalChildren_cons_illegal {Pos : Type} (m : Move) (rest : List (Move × GChild Pos)) :
    legalChildren ((m, GChild.illegal) :: rest) = legalChildren rest := by
  simp [legalChildren, GChild.isIllegal]

theorem legalChildren_cons_draw {Pos : Type} (m : Move) (tf : Bool)
    (rest : List (Move × GChild Pos)) :
    legalChildren ((m, GChild.draw tf) :: rest)
      = (m, GChild.draw tf) :: legalChildren rest := by
  simp [legalChildren, GChild.isIllegal]

theorem legalChildren_cons_next {Pos : Type} (m : Move) (q : Pos)
    (rest : List (Move × GChild Pos)) :
    legalChildren ((m, GChild.next q) :: rest)
      = (m, GChild.next q) :: legalChildren rest := by
  simp [legalChildren, GChild.isIllegal]

/-- The window contract for child searches, stated against an abstract value
function: a result at most `a` when the true value is, at least `b` when the
true value is, and exact strictly inside the window. -/
def ChildWindow {Pos : Type} (child : Int → Int → Pos → Int) (val : Pos → Int) : Prop :=
  ∀ (a b : Int) (q : Pos), a < b →
    (val q ≤ a → child a b q ≤ a) ∧
    (b ≤ val q → b ≤ child a b q) ∧
    (a < val q → val q < b → child a b q = val q)

/-- The score the loop observes for a successor move, related to the move's
true value through the child's window contract. -/
theorem obs_window {Pos : Type} {child : Int → Int → Pos → Int} {val : Pos → Int}
    (HC : ChildWindow child val) (q : Pos) (α β : Int) (hab : α < β) :
    (-(val q) ≤ α → -(child (-β) (-α) q) ≤ α) ∧
    (β ≤ -(val q) → β ≤ -(child (-β) (-α) q)) ∧
    (α < -(val q) → -(val q) < β → -(child (-β) (-α) q) = -(val q)) := by
  have h := HC (-β) (-α) q (by omega)
  refine ⟨?_, ?_, ?_⟩
  · intro hv
    have := h.2.1 (by omega)
    omega
  · intro hv
    have := h.1 (by omega)
    omega
  · intro hv1 hv2
    have := h.2.2 (by omega) (by omega)
    omega

/-- Once alpha equals the running best score and no remaining legal move can
exceed it, the loop changes nothing and exits with its current state. -/
theorem abTLoop_stable {Pos : Type} (g : Game Pos) (child : Int → Int → Pos → Int)
    (val : Pos → Int) (HC : ChildWindow child val) (ply : Nat) (beta : Int) (p : Pos) :
    ∀ (rest : List (Move × GChild Pos)) (alpha : Int) (best : Move)
      (node : TranspositionTable.NodeType),
      alpha < beta →
      (∀ mc ∈ legalChildren rest, childVal val mc.2 ≤ alpha) →
      abTLoop g child ply beta p rest alpha true best alpha node = ⟨alpha, best, node⟩ := by
  intro rest
  induction rest with
  | nil =>
    intro alpha best node hab hle
    simp [abTLoop]
  | cons x rest ih =>
    intro alpha best node hab hle
    obtain ⟨m, c⟩ := x
    cases c with
    | illegal =>
      rw [legalChildren_cons_illegal] at hle
      simp only [abTLoop]
      exact ih alpha best node hab hle
    | draw tf =>
      have hhead : childVal val (GChild.draw tf) ≤ alpha := by
        refine hle (m, GChild.draw tf) ?_
        rw [legalChildren_cons_draw]
        exact List.mem_cons_self _ _
      simp only [childVal] at hhead
      have hle2 : ∀ mc ∈ legalChildren rest, childVal val mc.2 ≤ alpha := by
        intro mc hmc
        refine hle mc ?_
        rw [legalChildren_cons_draw]
        exact List.mem_cons_of_mem _ hmc
      simp only [abTLoop]
      rw [if_neg (by omega), if_neg (by omega), if_neg (by omega)]
      exact ih alpha best node hab hle2
    | next q =>
      have hhead : childVal val (GChild.next q) ≤ alpha := by
        refine hle (m, GChild.next q) ?_
        rw [legalChildren_cons_next]
        exact List.mem_cons_self _ _
      simp only [childVal] at hhead
      have hobs := (obs_window HC q alpha beta hab).1 hhead
      have hle2 : ∀ mc ∈ legalChildren rest, childVal val mc.2 ≤ alpha := by
        intro mc hmc
        refine hle mc ?_
        rw [legalChildren_cons_next]
        exact List.mem_cons_of_mem _ hmc
      simp only [abTLoop]
      rw [if_neg (by omega), if_neg (by omega), if_neg (by omega)]
      exact ih alpha best node hab hle2

/-- Fail-low: when no remaining legal move can beat alpha (and some legal
move was or will be found), the loop returns alpha unchanged. -/
theorem abTLoop_faillow {Pos : Type} (g : Game Pos) (child : Int → Int → Pos → Int)
    (val : Pos → Int) (HC : ChildWindow child val) (ply : Nat) (beta : Int) (p : Pos) :
    ∀ (rest : List (Move × GChild Pos)) (alpha : Int) (hasLegal : Bool) (best : Move)
      (bestScore : Int) (node : TranspositionTable.NodeType),
      alpha < beta →
      (∀ mc ∈ legalChildren rest, childVal val mc.2 ≤ alpha) →
      (hasLegal = true ∨ legalChildren rest ≠ []) →
      (abTLoop g child ply beta p rest alpha hasLegal best bestScore node).score = alpha := by
  intro rest
  induction rest with
  | nil =>
    intro alpha hasLegal best bestScore node hab hle hside
    rcases hside with h | h
    · subst h
      simp [abTLoop]
    · exact absurd rfl h
  | cons x rest ih =>
    intro alpha hasLegal best bestScore node hab hle hside
    obtain ⟨m, c⟩ := x
    cases c with
    | illegal =>
      rw [legalChildren_cons_illegal] at hle hside
      simp only [abTLoop]
      exact ih alpha hasLegal best bestScore node hab hle hside
    | draw tf =>
      have hhead : childVal val (GChild.draw tf) ≤ alpha := by
        refine hle (m, GChild.draw tf) ?_
        rw [legalChildren_cons_draw]
        exact List.mem_cons_self _ _
      simp only [childVal] at hhead
      have hle2 : ∀ mc ∈ legalChildren rest, childVal val mc.2 ≤ alpha := by
        intro mc hmc
        refine hle mc ?_
        rw [legalChildren_cons_draw]
        exact List.mem_cons_of_mem _ hmc
      simp only [abTLoop]
      rw [if_neg (by omega), if_neg (by omega)]
      split_ifs <;> exact ih alpha true _ _ node hab hle2 (Or.inl rfl)
    | next q =>
      have hhead : childVal val (GChild.next q) ≤ alpha := by
        refine hle (m, GChild.next q) ?_
        rw [legalChildren_cons_next]
        exact List.mem_cons_self _ _
      simp only [childVal] at hhead
      have hobs := (obs_window HC q alpha beta hab).1 hhead
      have hle2 : ∀ mc ∈ legalChildren rest, childVal val mc.2 ≤ alpha := by
        intro mc hmc
        refine hle mc ?_
        rw [legalChildren_cons_next]
        exact List.mem_cons_of_mem _ hmc
      simp only [abTLoop]
      rw [if_neg (by omega), if_neg (by omega)]
      split_ifs <;> exact ih alpha true _ _ node hab hle2 (Or.inl rfl)

/-- Fail-high: when some remaining legal move reaches beta, the loop's result
reaches beta (the cutoff fires at or before that move). -/
theorem abTLoop_failhigh {Pos : Type} (g : Game Pos) (child : Int → Int → Pos → Int)
    (val : Pos → Int) (HC : ChildWindow child val) (ply : Nat) (beta : Int) (p : Pos) :
    ∀ (rest : List (Move × GChild Pos)) (alpha : Int) (hasLegal : Bool) (best : Move)
      (bestScore : Int) (node : TranspositionTable.NodeType),
      alpha < beta →
      (∃ mc ∈ legalChildren rest, beta ≤ childVal val mc.2) →
      beta ≤ (abTLoop g child ply beta p rest alpha hasLegal best bestScore node).score := by
  intro rest
  induction rest with
  | nil =>
    rintro alpha hasLegal best bestScore node hab ⟨mc, hmc, -⟩
    simp [legalChildren] at hmc
  | cons x rest ih =>
    rintro alpha hasLegal best bestScore node hab ⟨mc0, hmc0, hv0⟩
    obtain ⟨m, c⟩ := x
    cases c with
    | illegal =>
      rw [legalChildren_cons_illegal] at hmc0
      simp only [abTLoop]
      exact ih alpha hasLegal best bestScore node hab ⟨mc0, hmc0, hv0⟩
    | draw tf =>
      simp only [abTLoop]
      by_cases h0 : (0 : Int) ≥ beta
      · rw [if_pos h0]
        show beta ≤ (0 : Int)
        omega
      · rw [if_neg h0]
        have hmc0' : mc0 ∈ legalChildren rest := by
          rw [legalChildren_cons_draw] at hmc0
          rcases List.mem_cons.mp hmc0 with h | h
          · subst h
            simp only [childVal] at hv0
            omega
          · exact h
        split_ifs with h1 h2
        · exact ih 0 true _ _ _ (by omega) ⟨mc0, hmc0', hv0⟩
        · exact ih alpha true _ _ node hab ⟨mc0, hmc0', hv0⟩
        · exact ih alpha true _ _ node hab ⟨mc0, hmc0', hv0⟩
    | next q =>
      simp only [abTLoop]
      by_cases hs : -(child (-beta) (-alpha) q) ≥ beta
      · rw [if_pos hs]
        show beta ≤ -(child (-beta) (-alpha) q)
        omega
      · rw [if_neg hs]
        have hmc0' : mc0 ∈ legalChildren rest := by
          rw [legalChildren_cons_next] at hmc0
          rcases List.mem_cons.mp hmc0 with h | h
          · subst h
            simp only [childVal] at hv0
            have := (obs_window HC q alpha beta hab).2.1 hv0
            omega
          · exact h
        split_ifs with h1 h2
        · exact ih _ true _ _ _ (by omega) ⟨mc0, hmc0', hv0⟩
        · exact ih alpha true _ _ node hab ⟨mc0, hmc0', hv0⟩
        · exact ih alpha true _ _ node hab ⟨mc0, hmc0', hv0⟩

/-- Exact case: when the best legal move value lies strictly inside the
window, the loop returns exactly that value with node type EXACT, and the
reported best move is a legal move attaining it. -/
theorem abTLoop_exact {Pos : Type} (g : Game Pos) (child : Int → Int → Pos → Int)
    (val : Pos → Int) (HC : ChildWindow child val) (ply : Nat) (beta : Int) (p : Pos) :
    ∀ (rest : List (Move × GChild Pos)) (alpha : Int) (hasLegal : Bool) (best : Move)
      (bestScore : Int) (node : TranspositionTable.NodeType) (vmax : Int),
      alpha < beta →
      (∃ mc0 ∈ legalChildren rest, childVal val mc0.2 = vmax) →
      alpha < vmax → vmax < beta →
      (∀ mc ∈ legalChildren rest, childVal val mc.2 ≤ vmax) →
      ∃ mc1 ∈ legalChildren rest, childVal val mc1.2 = vmax ∧
        abTLoop g child ply beta p rest alpha hasLegal best bestScore node
          = ⟨vmax, mc1.1, TranspositionTable.NodeType.EXACT⟩ := by
  intro rest
  induction rest with
  | nil =>
    rintro alpha hasLegal best bestScore node vmax hab ⟨mc0, hmc0, -⟩ hav hvb hall
    simp [legalChildren] at hmc0
  | cons x rest ih =>
    rintro alpha hasLegal best bestScore node vmax hab ⟨mc0, hmc0, hv0⟩ hav hvb hall
    obtain ⟨m, c⟩ := x
    cases c with
    | illegal =>
      rw [legalChildren_cons_illegal] at hmc0 hall
      obtain ⟨mc1, h1, h2, h3⟩ := ih alpha hasLegal best bestScore node vmax hab
        ⟨mc0, hmc0, hv0⟩ hav hvb hall
      refine ⟨mc1, ?_, h2, ?_⟩
      · rw [legalChildren_cons_illegal]
        exact h1
      · simp only [abTLoop]
        exact h3
    | draw tf =>
      have hhd : childVal val (GChild.draw tf) = (0 : Int) := rfl
      have hall2 : ∀ mc ∈ legalChildren rest, childVal val mc.2 ≤ vmax := by
        intro mc hmc
        refine hall mc ?_
        rw [legalChildren_cons_draw]
        exact List.mem_cons_of_mem _ hmc
      by_cases hhv : (0 : Int) = vmax
      · refine ⟨(m, GChild.draw tf), ?_, by simpa [childVal] using hhv.symm ▸ rfl, ?_⟩
        · rw [legalChildren_cons_draw]
          exact List.mem_cons_self _ _
        · simp only [abTLoop]
          rw [if_neg (by omega), if_pos (by omega)]
          rw [abTLoop_stable g child val HC ply beta p rest 0 m
            TranspositionTable.NodeType.EXACT (by omega) (by rw [hhv]; exact hall2)]
          rw [← hhv]
      · have hmc0' : mc0 ∈ legalChildren rest := by
          rw [legalChildren_cons_draw] at hmc0
          rcases List.mem_cons.mp hmc0 with h | h
          · subst h
            simp only [childVal] at hv0
            exact absurd hv0 hhv
          · exact h
        have h0v : (0 : Int) < vmax := by
          have := hall (m, GChild.draw tf) (by rw [legalChildren_cons_draw]; exact List.mem_cons_self _ _)
          simp only [childVal] at this
          omega
        simp only [abTLoop]
        rw [if_neg (by omega)]
        by_cases hra : (0 : Int) > alpha
        · rw [if_pos hra]
          obtain ⟨mc1, h1, h2, h3⟩ := ih 0 true m 0 TranspositionTable.NodeType.EXACT vmax
            (by omega) ⟨mc0, hmc0', hv0⟩ (by omega) hvb hall2
          refine ⟨mc1, ?_, h2, h3⟩
          rw [legalChildren_cons_draw]
          exact List.mem_cons_of_mem _ h1
        · rw [if_neg hra]
          split_ifs with hbs
          · obtain ⟨mc1, h1, h2, h3⟩ := ih alpha true m 0 node vmax hab
              ⟨mc0, hmc0', hv0⟩ hav hvb hall2
            refine ⟨mc1, ?_, h2, h3⟩
            rw [legalChildren_cons_draw]
            exact List.mem_cons_of_mem _ h1
          · obtain ⟨mc1, h1, h2, h3⟩ := ih alpha true best bestScore node vmax hab
              ⟨mc0, hmc0', hv0⟩ hav hvb hall2
            refine ⟨mc1, ?_, h2, h3⟩
            rw [legalChildren_cons_draw]
            exact List.mem_cons_of_mem _ h1
    | next q =>
      have hall2 : ∀ mc ∈ legalChildren rest, childVal val mc.2 ≤ vmax := by
        intro mc hmc
        refine hall mc ?_
        rw [legalChildren_cons_next]
        exact List.mem_cons_of_mem _ hmc
      by_cases hhv : -(val q) = vmax
      · have hobs := (obs_window HC q alpha beta hab).2.2 (by omega) (by omega)
        refine ⟨(m, GChild.next q), ?_, by simpa [childVal] using hhv, ?_⟩
        · rw [legalChildren_cons_next]
          exact List.mem_cons_self _ _
        · simp only [abTLoop]
          rw [hobs, hhv]
          rw [if_neg (by omega), if_pos (by omega)]
          exact abTLoop_stable g child val HC ply beta p rest vmax m
            TranspositionTable.NodeType.EXACT (by omega) hall2
      · have hmc0' : mc0 ∈ legalChildren rest := by
          rw [legalChildren_cons_next] at hmc0
          rcases List.mem_cons.mp hmc0 with h | h
          · subst h
            simp only [childVal] at hv0
            exact absurd hv0 hhv
          · exact h
        have hhle : -(val q) < vmax := by
          have := hall (m, GChild.next q) (by rw [legalChildren_cons_next]; exact List.mem_cons_self _ _)
          simp only [childVal] at this
          omega
        by_cases hca : -(val q) ≤ alpha
        · have hobs := (obs_window HC q alpha beta hab).1 hca
          simp only [abTLoop]
          rw [if_neg (by omega), if_neg (by omega)]
          split_ifs with hbs
          · obtain ⟨mc1, h1, h2, h3⟩ := ih alpha true m _ node vmax hab
              ⟨mc0, hmc0', hv0⟩ hav hvb hall2
            refine ⟨mc1, ?_, h2, h3⟩
            rw [legalChildren_cons_next]
            exact List.mem_cons_of_mem _ h1
          · obtain ⟨mc1, h1, h2, h3⟩ := ih alpha true best bestScore node vmax hab
              ⟨mc0, hmc0', hv0⟩ hav hvb hall2
            refine ⟨mc1, ?_, h2, h3⟩
            rw [legalChildren_cons_next]
            exact List.mem_cons_of_mem _ h1
        · have hobs := (obs_window HC q alpha beta hab).2.2 (by omega) (by omega)
          simp only [abTLoop]
          rw [hobs]
          rw [if_neg (by omega), if_pos (by omega)]
          obtain ⟨mc1, h1, h2, h3⟩ := ih (-(val q)) true m (-(val q))
            TranspositionTable.NodeType.EXACT vmax (by omega) ⟨mc0, hmc0', hv0⟩ (by omega)
            hvb hall2
          refine ⟨mc1, ?_, h2, h3⟩
          rw [legalChildren_cons_next]
          exact List.mem_cons_of_mem _ h1

/-- With no legal move in the list and none seen so far, the loop ends in the
mate/stalemate terminal case. -/
theorem abTLoop_terminal {Pos : Type} (g : Game Pos) (child : Int → Int → Pos → Int)
    (ply : Nat) (beta : Int) (p : Pos) :
    ∀ (rest : List (Move × GChild Pos)) (alpha : Int) (best : Move) (bestScore : Int)
      (node : TranspositionTable.NodeType),
      legalChildren rest = [] →
      abTLoop g child ply beta p rest alpha false best bestScore node
        = if g.inCheck p then
            ⟨-(MATE_SCORE - (ply : Int)), NULL_MOVE, TranspositionTable.NodeType.UPPERBOUND⟩
          else ⟨0, NULL_MOVE, TranspositionTable.NodeType.UPPERBOUND⟩ := by
  intro rest
  induction rest with
  | nil =>
    intro alpha best bestScore node hleg
    simp [abTLoop]
  | cons x rest ih =>
    intro alpha best bestScore node hleg
    obtain ⟨m, c⟩ := x
    cases c with
    | illegal =>
      rw [legalChildren_cons_illegal] at hleg
      simp only [abTLoop]
      exact ih alpha best bestScore node hleg
    | draw tf =>
      rw [legalChildren_cons_draw] at hleg
      exact absurd hleg (by simp)
    | next q =>
      rw [legalChildren_cons_next] at hleg
      exact absurd hleg (by simp)

/-- The window soundness theorem for the tree-level pruned search: for any
move ordering that permutes the generated list and leaf evaluations inside
the horizon's mate window, the pruned score is at most alpha when the
minimax value is, at least beta when the minimax value is, and exactly the
minimax value strictly inside the window — clamping, pruning and ordering
never change the in-window result. -/
theorem abT_window {Pos : Type} (g : Game Pos)
    (reorder : Pos → List (Move × GChild Pos) → List (Move × GChild Pos))
    (N : Nat) (hN : (N : Int) < MATE_SCORE)
    (hE : ∀ q, -(MATE_SCORE - (N : Int)) < g.eval q ∧ g.eval q < MATE_SCORE - (N : Int))
    (hperm : ∀ p, List.Perm (reorder p (g.moves p)) (g.moves p)) :
    ∀ d ply p alpha beta, alpha < beta → ply + d ≤ N →
      (minimax g d ply p ≤ alpha → (abT g reorder d ply alpha beta p).score ≤ alpha) ∧
      (beta ≤ minimax g d ply p → beta ≤ (abT g reorder d ply alpha beta p).score) ∧
      (alpha < minimax g d ply p → minimax g d ply p < beta →
        (abT g reorder d ply alpha beta p).score = minimax g d ply p) := by
  intro d
  induction d with
  | zero =>
    intro ply p alpha beta hab hpd
    simp only [abT, minimax]
    exact ⟨fun h => h, fun h => h, fun _ _ => trivial⟩
  | succ d ih =>
    intro ply p alpha beta hab hpd
    have hply : (ply : Int) + 1 ≤ (N : Int) := by exact_mod_cast (by omega : ply + 1 ≤ N)
    have hbound := minimax_bounds g N hN hE (d + 1) ply p hpd
    have HC : ChildWindow (fun a b q => (abT g reorder d (ply + 1) a b q).score)
        (fun q => minimax g d (ply + 1) q) := by
      intro a b q h
      exact ih (ply + 1) q a b h (by omega)
    have hpf : List.Perm (legalChildren (reorder p (g.moves p)))
        (legalChildren (g.moves p)) := List.Perm.filter _ (hperm p)
    by_cases hcl : max alpha (-MATE_SCORE + (ply : Int))
        ≥ min beta (MATE_SCORE - (ply : Int))
    · have hres : (abT g reorder (d + 1) ply alpha beta p).score
          = max alpha (-MATE_SCORE + (ply : Int)) := by
        simp only [abT]
        rw [if_pos hcl]
      rw [hres]
      refine ⟨?_, ?_, ?_⟩
      · intro hv
        omega
      · intro hv
        omega
      · intro hv1 hv2
        omega
    · have hres : (abT g reorder (d + 1) ply alpha beta p)
          = abTLoop g (fun a b q => (abT g reorder d (ply + 1) a b q).score) ply
              (min beta (MATE_SCORE - (ply : Int))) p (reorder p (g.moves p))
              (max alpha (-MATE_SCORE + (ply : Int))) false NULL_MOVE (-(2 ^ 31))
              TranspositionTable.NodeType.UPPERBOUND := by
        simp only [abT]
        rw [if_neg hcl]
      rw [hres]
      cases hleg : legalChildren (g.moves p) with
      | nil =>
        have hlegL : legalChildren (reorder p (g.moves p)) = [] := by
          rw [hleg] at hpf
          exact List.Perm.eq_nil hpf
        have hv : minimax g (d + 1) ply p
            = if g.inCheck p then -(MATE_SCORE - (ply : Int)) else 0 := by
          simp only [minimax, hleg]
        rw [abTLoop_terminal g _ ply _ p _ _ _ _ _ hlegL, hv]
        by_cases hchk : g.inCheck p = true
        · simp only [hchk, if_true, if_pos rfl]
          exact ⟨fun h => h, fun h => h, fun _ _ => trivial⟩
        · have hchk2 : g.inCheck p = false := by
            cases h : g.inCheck p
            · rfl
            · exact absurd h hchk
          simp only [hchk2, Bool.false_eq_true, if_false]
          exact ⟨fun h => h, fun h => h, fun _ _ => trivial⟩
      | cons c cs =>
        have hv : minimax g (d + 1) ply p
            = listMaxVal (fun mc => childVal (fun q => minimax g d (ply + 1) q) mc.2) c cs := by
          simp only [minimax, hleg]
        obtain ⟨x, hxmem, hxeq⟩ := listMaxVal_mem
          (fun mc => childVal (fun q => minimax g d (ply + 1) q) mc.2) c cs
        have hxmem' : x ∈ legalChildren (reorder p (g.moves p)) := by
          rw [List.Perm.mem_iff hpf, hleg]
          exact hxmem
        have hlegLne : legalChildren (reorder p (g.moves p)) ≠ [] := by
          intro hnil
          rw [hnil, hleg] at hpf
          exact absurd (List.Perm.nil_eq hpf).symm (by simp)
        have hallL : ∀ mc ∈ legalChildren (reorder p (g.moves p)),
            childVal (fun q => minimax g d (ply + 1) q) mc.2 ≤ minimax g (d + 1) ply p := by
          intro mc hmc
          rw [hv]
          refine listMaxVal_le _ c cs mc ?_
          rw [← hleg]
          exact (List.Perm.mem_iff hpf).mp hmc
        have hstrong : -(MATE_SCORE - (ply : Int)) + 1 ≤ minimax g (d + 1) ply p := by
          rw [hv, hxeq]
          cases hx2 : x.2 with
          | illegal => simp only [childVal]; omega
          | draw tf => simp only [childVal]; omega
          | next q =>
            have hq := minimax_bounds g N hN hE d (ply + 1) q (by omega)
            have hcast : ((ply + 1 : Nat) : Int) = (ply : Int) + 1 := by push_cast; ring
            rw [hcast] at hq
            simp only [childVal]
            omega
        refine ⟨?_, ?_, ?_⟩
        · intro hva
          have hsc := abTLoop_faillow g _ (fun q => minimax g d (ply + 1) q) HC ply
            (min beta (MATE_SCORE - (ply : Int))) p
            (reorder p (g.moves p)) (max alpha (-MATE_SCORE + (ply : Int))) false NULL_MOVE
            (-(2 ^ 31)) TranspositionTable.NodeType.UPPERBOUND (by omega)
            (fun mc hmc => by have h0 := hallL mc hmc; omega) (Or.inr hlegLne)
          rw [hsc]
          omega
        · intro hvb
          have hb2 : min beta (MATE_SCORE - (ply : Int)) = beta := by omega
          have hsc := abTLoop_failhigh g _ (fun q => minimax g d (ply + 1) q) HC ply
            (min beta (MATE_SCORE - (ply : Int))) p
            (reorder p (g.moves p)) (max alpha (-MATE_SCORE + (ply : Int))) false NULL_MOVE
            (-(2 ^ 31)) TranspositionTable.NodeType.UPPERBOUND (by omega)
            ⟨x, hxmem', by rw [← hxeq, ← hv, hb2]; exact hvb⟩
          omega
        · intro hv1 hv2
          obtain ⟨mc1, h1, h2, h3⟩ := abTLoop_exact g _ (fun q => minimax g d (ply + 1) q)
            HC ply (min beta (MATE_SCORE - (ply : Int))) p
            (reorder p (g.moves p)) (max alpha (-MATE_SCORE + (ply : Int))) false
            NULL_MOVE (-(2 ^ 31)) TranspositionTable.NodeType.UPPERBOUND
            (minimax g (d + 1) ply p) (by omega)
            ⟨x, hxmem', by rw [← hxeq, ← hv]⟩ (by omega) (by omega) hallL
          rw [h3]

/-- `contains` answers through the entries and the capacity only, not the
counters. -/
theorem contains_fst_congr (tt1 tt2 : TranspositionTable) (h : Int)
    (he : tt1.entries = tt2.entries) (hs : tt1.size = tt2.size) :
    (tt1.contains h).1 = (tt2.contains h).1 := by
  simp only [TranspositionTable.contains, TranspositionTable.index, he, hs]

/-- A probe leaves the stored entries untouched (it only bumps counters). -/
theorem Search.getTransposition_tt_entries (tt : TranspositionTable) (hash : Int)
    (depth ply score alpha beta : Int) (hm : Move) :
    (Search.getTransposition tt hash depth ply score alpha beta hm).tt.entries
      = tt.entries := by
  simp only [Search.getTransposition, TranspositionTable.getEntry]
  split
  · split
    · split
      · exact TranspositionTable.contains_entries tt hash
      · split
        · exact TranspositionTable.contains_entries tt hash
        · exact TranspositionTable.contains_entries tt hash
      · split
        · exact TranspositionTable.contains_entries tt hash
        · exact TranspositionTable.contains_entries tt hash
      · exact TranspositionTable.contains_entries tt hash
    · exact TranspositionTable.contains_entries tt hash
  · exact TranspositionTable.contains_entries tt hash

/-- A probe leaves the capacity untouched. -/
theorem Search.getTransposition_tt_size (tt : TranspositionTable) (hash : Int)
    (depth ply score alpha beta : Int) (hm : Move) :
    (Search.getTransposition tt hash depth ply score alpha beta hm).tt.size
      = tt.size := by
  simp only [Search.getTransposition, TranspositionTable.getEntry]
  split
  · split
    · split
      · exact TranspositionTable.contains_size tt hash
      · split
        · exact TranspositionTable.contains_size tt hash
        · exact TranspositionTable.contains_size tt hash
      · split
        · exact TranspositionTable.contains_size tt hash
        · exact TranspositionTable.contains_size tt hash
      · exact TranspositionTable.contains_size tt hash
    · exact TranspositionTable.contains_size tt hash
  · exact TranspositionTable.contains_size tt hash

/-- On a missed key comparison the probe returns everything unchanged (the
by-reference parameters keep their values) with only the collision counter
possibly bumped. -/
theorem Search.getTransposition_miss (tt : TranspositionTable) (hash : Int)
    (depth ply score alpha beta : Int) (hm : Move)
    (hc : (tt.contains hash).1 = false) :
    Search.getTransposition tt hash depth ply score alpha beta hm
      = ⟨false, score, alpha, beta, hm, (tt.contains hash).2⟩ := by
  simp only [Search.getTransposition, hc]
  rfl

/-- Writing an entry whose key differs from `h` cannot make `h` contained. -/
theorem TranspositionTable.contains_write_ne (tt : TranspositionTable) (idx : Nat)
    (en : TranspositionTable.Entry) (h : Int)
    (hk : en.key ≠ h) (h0 : (tt.contains h).1 = false) :
    ((tt.write idx en).contains h).1 = false := by
  simp only [TranspositionTable.contains, TranspositionTable.index,
    TranspositionTable.write] at h0 ⊢
  by_cases hi : h.natAbs % tt.size = idx
  · simp [hi, hk]
  · simp only [hi, if_false]
    exact h0

/-- `normalizeEntry` keeps the stored key. -/
theorem TranspositionTable.normalizeEntry_key (e : TranspositionTable.Entry) (ply : Int) :
    (TranspositionTable.normalizeEntry e ply).key = e.key := by
  unfold TranspositionTable.normalizeEntry
  split <;> rfl

/-- Storing under a key whose entry's key field differs from `h` cannot make
`h` contained, whatever the replacement scheme decides. -/
theorem TranspositionTable.contains_setEntry_ne (tt : TranspositionTable) (k : Int)
    (e : TranspositionTable.Entry) (ply h : Int)
    (hk : e.key ≠ h) (h0 : (tt.contains h).1 = false) :
    (((tt.setEntry k e ply)).contains h).1 = false := by
  have hk2 : (TranspositionTable.normalizeEntry e ply).key ≠ h := by
    rw [TranspositionTable.normalizeEntry_key]
    exact hk
  simp only [TranspositionTable.setEntry]
  split_ifs
  · exact TranspositionTable.contains_write_ne tt _ _ h hk2 h0
  · exact h0
  · exact TranspositionTable.contains_write_ne tt _ _ h hk2 h0
  · exact h0
  · exact TranspositionTable.contains_write_ne tt _ _ h hk2 h0

/-- The cache-threading move loop agrees with the cacheless one, and keeps
fresh every hash outside the node and its remaining subtrees, when the
subtree hashes ahead are pairwise fresh, duplicate-free, and avoid the node's
own hash — the inductive heart of the no-possible-hit equivalence. -/
theorem abTTLoop_no_hit {Pos : Type} (g : Game Pos)
    (reorder : Pos → List (Move × GChild Pos) → List (Move × GChild Pos))
    (childT : Int → Int → Pos → TranspositionTable → Int × TranspositionTable)
    (child : Int → Int → Pos → Int) (d : Nat)
    (HCA : ∀ a b q tt,
      (hashList g reorder d q).Nodup →
      (∀ h ∈ hashList g reorder d q, (tt.contains h).1 = false) →
      (childT a b q tt).1 = child a b q ∧
      (∀ h, (tt.contains h).1 = false → h ∉ hashList g reorder d q →
        (((childT a b q tt).2).contains h).1 = false))
    (depth : Int) (ply : Nat) (beta : Int) (p : Pos) :
    ∀ (rest : List (Move × GChild Pos)) (alpha : Int) (hasLegal : Bool) (best : Move)
      (bestScore : Int) (node : TranspositionTable.NodeType) (noStore : Bool)
      (tt : TranspositionTable),
      (childHashes (fun q => hashList g reorder d q) rest).Nodup →
      (∀ h ∈ childHashes (fun q => hashList g reorder d q) rest,
        (tt.contains h).1 = false) →
      g.hash p ∉ childHashes (fun q => hashList g reorder d q) rest →
      (abTTLoop g childT depth ply beta p rest alpha hasLegal best bestScore node
          noStore tt).1
        = (abTLoop g child ply beta p rest alpha hasLegal best bestScore node).score ∧
      (∀ h, (tt.contains h).1 = false →
        h ∉ childHashes (fun q => hashList g reorder d q) rest → h ≠ g.hash p →
        (((abTTLoop g childT depth ply beta p rest alpha hasLegal best bestScore node
            noStore tt).2).contains h).1 = false) := by
  intro rest
  induction rest with
  | nil =>
    intro alpha hasLegal best bestScore node noStore tt hnd hfr hph
    constructor
    · simp only [abTTLoop, abTLoop]
      split_ifs <;> rfl
    · intro h h0 hmem hne
      simp only [abTTLoop]
      split_ifs
      · exact h0
      · exact h0
      · exact TranspositionTable.contains_setEntry_ne _ _ _ _ _ (Ne.symm hne) h0
      · exact h0
  | cons x rest ih =>
    intro alpha hasLegal best bestScore node noStore tt hnd hfr hph
    obtain ⟨m, c⟩ := x
    cases c with
    | illegal =>
      simp only [childHashes] at hnd hfr hph
      simp only [abTTLoop, abTLoop]
      exact ih alpha hasLegal best bestScore node noStore tt hnd hfr hph
    | draw tf =>
      simp only [childHashes] at hnd hfr hph
      constructor
      · simp only [abTTLoop, abTLoop]
        split_ifs
        · rfl
        · rfl
        · exact (ih 0 true m 0 TranspositionTable.NodeType.EXACT noStore tt
            hnd hfr hph).1
        · exact (ih alpha true m 0 node tf tt hnd hfr hph).1
        · exact (ih alpha true best bestScore node noStore tt hnd hfr hph).1
      · intro h h0 hmem hne
        simp only [abTTLoop]
        split_ifs
        · exact TranspositionTable.contains_setEntry_ne _ _ _ _ _ (Ne.symm hne) h0
        · exact h0
        · exact (ih 0 true m 0 TranspositionTable.NodeType.EXACT noStore tt
            hnd hfr hph).2 h h0 hmem hne
        · exact (ih alpha true m 0 node tf tt hnd hfr hph).2 h h0 hmem hne
        · exact (ih alpha true best bestScore node noStore tt hnd hfr hph).2 h h0 hmem hne
    | next q =>
      simp only [childHashes] at hnd hfr hph
      rw [List.nodup_append] at hnd
      obtain ⟨hndq, hndr, hdisj⟩ := hnd
      have hfq : ∀ h ∈ hashList g reorder d q, (tt.contains h).1 = false :=
        fun h hh => hfr h (List.mem_append_left _ hh)
      have hfrr : ∀ h ∈ childHashes (fun q => hashList g reorder d q) rest,
          (tt.contains h).1 = false :=
        fun h hh => hfr h (List.mem_append_right _ hh)
      obtain ⟨hcs, hcp⟩ := HCA (-beta) (-alpha) q tt hndq hfq
      have hfrr1 : ∀ h ∈ childHashes (fun q => hashList g reorder d q) rest,
          (((childT (-beta) (-alpha) q tt).2).contains h).1 = false :=
        fun h hh => hcp h (hfrr h hh) (fun hin => hdisj hin hh)
      have hphr : g.hash p ∉ childHashes (fun q => hashList g reorder d q) rest :=
        fun hh => hph (List.mem_append_right _ hh)
      constructor
      · simp only [abTTLoop, abTLoop]
        rw [hcs]
        split_ifs
        · rfl
        · exact (ih (-(child (-beta) (-alpha) q)) true m (-(child (-beta) (-alpha) q))
            TranspositionTable.NodeType.EXACT noStore
            ((childT (-beta) (-alpha) q tt).2) hndr hfrr1 hphr).1
        · exact (ih alpha true m (-(child (-beta) (-alpha) q)) node false
            ((childT (-beta) (-alpha) q tt).2) hndr hfrr1 hphr).1
        · exact (ih alpha true best bestScore node noStore
            ((childT (-beta) (-alpha) q tt).2) hndr hfrr1 hphr).1
      · intro h h0 hmem hne
        have hmq : h ∉ hashList g reorder d q :=
          fun hh => hmem (List.mem_append_left _ hh)
        have hmr : h ∉ childHashes (fun q => hashList g reorder d q) rest :=
          fun hh => hmem (List.mem_append_right _ hh)
        have h0q : (((childT (-beta) (-alpha) q tt).2).contains h).1 = false :=
          hcp h h0 hmq
        simp only [abTTLoop]
        split_ifs
        · exact TranspositionTable.contains_setEntry_ne _ _ _ _ _ (Ne.symm hne) h0q
        · exact (ih (-(childT (-beta) (-alpha) q tt).1) true m
            (-(childT (-beta) (-alpha) q tt).1) TranspositionTable.NodeType.EXACT noStore
            ((childT (-beta) (-alpha) q tt).2) hndr hfrr1 hphr).2 h h0q hmr hne
        · exact (ih alpha true m (-(childT (-beta) (-alpha) q tt).1) node false
            ((childT (-beta) (-alpha) q tt).2) hndr hfrr1 hphr).2 h h0q hmr hne
        · exact (ih alpha true best bestScore node noStore
            ((childT (-beta) (-alpha) q tt).2) hndr hfrr1 hphr).2 h h0q hmr hne

/-- The cache-carrying search agrees with the cacheless one whenever the
search tree's node hashes are pairwise distinct (no transposition and no hash
collision among probing nodes) and none of them is already contained in the
starting table: then every probe misses, and the stores can only add keys of
this subtree. -/
theorem abTT_no_hit {Pos : Type} (g : Game Pos)
    (reorder : Pos → List (Move × GChild Pos) → List (Move × GChild Pos)) :
    ∀ (d ply : Nat) (alpha beta : Int) (p : Pos) (tt : TranspositionTable),
      (hashList g reorder d p).Nodup →
      (∀ h ∈ hashList g reorder d p, (tt.contains h).1 = false) →
      (abTT g reorder d ply alpha beta p tt).1
        = (abT g reorder d ply alpha beta p).score ∧
      (∀ h, (tt.contains h).1 = false → h ∉ hashList g reorder d p →
        (((abTT g reorder d ply alpha beta p tt).2).contains h).1 = false) := by
  intro d
  induction d with
  | zero =>
    intro ply alpha beta p tt hnd hf
    exact ⟨rfl, fun h h0 _ => h0⟩
  | succ d ih =>
    intro ply alpha beta p tt hnd hf
    have hself : (tt.contains (g.hash p)).1 = false := by
      refine hf _ ?_
      simp only [hashList]
      exact List.mem_cons_self _ _
    have hmiss := Search.getTransposition_miss tt (g.hash p) ((d : Int) + 1) (ply : Int)
      0 alpha beta NULL_MOVE hself
    have hc2 : ∀ h, (((tt.contains (g.hash p)).2).contains h).1 = (tt.contains h).1 :=
      fun h => contains_fst_congr _ _ h (TranspositionTable.contains_entries _ _)
        (TranspositionTable.contains_size _ _)
    simp only [hashList, List.nodup_cons] at hnd
    obtain ⟨hph, hndc⟩ := hnd
    have hfc : ∀ h ∈ childHashes (fun q => hashList g reorder d q)
        (reorder p (g.moves p)), (((tt.contains (g.hash p)).2).contains h).1 = false := by
      intro h hh
      rw [hc2]
      refine hf h ?_
      simp only [hashList]
      exact List.mem_cons_of_mem _ hh
    have habtt : abTT g reorder (d + 1) ply alpha beta p tt
        = (if max alpha (-MATE_SCORE + (ply : Int))
              ≥ min beta (MATE_SCORE - (ply : Int)) then
             (max alpha (-MATE_SCORE + (ply : Int)), (tt.contains (g.hash p)).2)
           else
             abTTLoop g (fun a b q tt2 => abTT g reorder d (ply + 1) a b q tt2)
               ((d : Int) + 1) ply (min beta (MATE_SCORE - (ply : Int))) p
               (reorder p (g.moves p)) (max alpha (-MATE_SCORE + (ply : Int))) false
               NULL_MOVE (-(2 ^ 31)) TranspositionTable.NodeType.UPPERBOUND false
               (tt.contains (g.hash p)).2) := by
      simp only [abTT]
      rw [hmiss]
      rfl
    have HCA : ∀ a b q tt2,
        (hashList g reorder d q).Nodup →
        (∀ h ∈ hashList g reorder d q, (tt2.contains h).1 = false) →
        ((fun a b q tt2 => abTT g reorder d (ply + 1) a b q tt2) a b q tt2).1
          = (fun a b q => (abT g reorder d (ply + 1) a b q).score) a b q ∧
        (∀ h, (tt2.contains h).1 = false → h ∉ hashList g reorder d q →
          ((((fun a b q tt2 => abTT g reorder d (ply + 1) a b q tt2) a b q
              tt2).2).contains h).1 = false) :=
      fun a b q tt2 hndq hfq => ih (ply + 1) a b q tt2 hndq hfq
    by_cases hclamp : max alpha (-MATE_SCORE + (ply : Int))
        ≥ min beta (MATE_SCORE - (ply : Int))
    · constructor
      · rw [habtt, if_pos hclamp]
        simp only [abT]
        rw [if_pos hclamp]
      · intro h h0 hmem
        rw [habtt, if_pos hclamp]
        show (((tt.contains (g.hash p)).2).contains h).1 = false
        rw [hc2]
        exact h0
    · have hloop := abTTLoop_no_hit g reorder
        (fun a b q tt2 => abTT g reorder d (ply + 1) a b q tt2)
        (fun a b q => (abT g reorder d (ply + 1) a b q).score) d HCA
        ((d : Int) + 1) ply (min beta (MATE_SCORE - (ply : Int))) p
        (reorder p (g.moves p)) (max alpha (-MATE_SCORE + (ply : Int))) false
        NULL_MOVE (-(2 ^ 31)) TranspositionTable.NodeType.UPPERBOUND false
        (tt.contains (g.hash p)).2 hndc hfc hph
      constructor
      · rw [habtt, if_neg hclamp]
        simp only [abT]
        rw [if_neg hclamp]
        exact hloop.1
      · intro h h0 hmem
        have hm1 : h ≠ g.hash p := by
          intro he
          refine hmem ?_
          rw [he]
          simp only [hashList]
          exact List.mem_cons_self _ _
        have hm2 : h ∉ childHashes (fun q => hashList g reorder d q)
            (reorder p (g.moves p)) := by
          intro hh
          refine hmem ?_
          simp only [hashList]
          exact List.mem_cons_of_mem _ hh
        rw [habtt, if_neg hclamp]
        refine hloop.2 h ?_ hm2 hm1
        rw [hc2]
        exact h0

/-- Claim C1 (amended): on every finite game tree whose leaf evaluations lie
strictly inside the mate window of the horizon (the clamp counterexample
shows this is needed), with cancellation never triggered, the SCORE returned
by the full-window pruned search equals the exhaustive minimax value for
every move ordering that permutes the generated list, and when a legal move
exists both the pruned search's chosen move and the minimax choice attain
that optimal value; the two chosen moves need not coincide — under ties the
ordering decides which optimal move is kept. The cache-carrying search
`abTT` returns that same minimax score whenever its node hashes are pairwise
distinct and absent from the starting table, so that no probe can hit; the
transposition counterexample shows a hit can change the score, so cache
probing cannot be added to the equivalence. -/
theorem claim_C1_alphabeta_equivalence_amended {Pos : Type} (g : Game Pos)
    (reorder : Pos → List (Move × GChild Pos) → List (Move × GChild Pos))
    (N : Nat) (hN : (N : Int) < MATE_SCORE)
    (hE : ∀ q, -(MATE_SCORE - (N : Int)) < g.eval q ∧ g.eval q < MATE_SCORE - (N : Int))
    (hperm : ∀ q, List.Perm (reorder q (g.moves q)) (g.moves q))
    (d : Nat) (hd : 1 ≤ d) (hdN : d ≤ N) (p : Pos) :
    (abT g reorder d 0 (-2147483647) 2147483647 p).score = minimax g d 0 p ∧
    (legalChildren (g.moves p) ≠ [] →
      (∃ mc ∈ legalChildren (g.moves p),
        mc.1 = (abT g reorder d 0 (-2147483647) 2147483647 p).best ∧
        childVal (fun q => minimax g (d - 1) 1 q) mc.2 = minimax g d 0 p) ∧
      (∃ mc ∈ legalChildren (g.moves p),
        some mc.1 = minimaxMove g d 0 p ∧
        childVal (fun q => minimax g (d - 1) 1 q) mc.2 = minimax g d 0 p)) ∧
    (∀ tt : TranspositionTable,
      (hashList g reorder d p).Nodup →
      (∀ h ∈ hashList g reorder d p, (tt.contains h).1 = false) →
      (abTT g reorder d 0 (-2147483647) 2147483647 p tt).1 = minimax g d 0 p) := by
  have hM : MATE_SCORE = 65536 := rfl
  have hbound := minimax_bounds g N hN hE d 0 p (by omega)
  rw [Nat.cast_zero] at hbound
  have hscore : (abT g reorder d 0 (-2147483647) 2147483647 p).score
      = minimax g d 0 p := by
    have hw := abT_window g reorder N hN hE hperm d 0 p (-2147483647) 2147483647
      (by norm_num) (by omega)
    exact hw.2.2 (by omega) (by omega)
  refine ⟨hscore, ?_, ?_⟩
  case refine_2 =>
    intro tt hndh hfh
    rw [(abTT_no_hit g reorder d 0 (-2147483647) 2147483647 p tt hndh hfh).1]
    exact hscore
  · intro hleg
    obtain ⟨e, rfl⟩ : ∃ e, d = e + 1 := ⟨d - 1, by omega⟩
    have hpf : List.Perm (legalChildren (reorder p (g.moves p)))
        (legalChildren (g.moves p)) := List.Perm.filter _ (hperm p)
    cases hlc : legalChildren (g.moves p) with
    | nil => exact absurd hlc hleg
    | cons c cs =>
      have hv : minimax g (e + 1) 0 p
          = listMaxVal (fun mc => childVal (fun q => minimax g e (0 + 1) q) mc.2) c cs := by
        simp only [minimax, hlc]
      obtain ⟨x, hxmem, hxeq⟩ := listMaxVal_mem
        (fun mc => childVal (fun q => minimax g e (0 + 1) q) mc.2) c cs
      have hxv : childVal (fun q => minimax g e (0 + 1) q) x.2 = minimax g (e + 1) 0 p := by
        rw [hv, hxeq]
      have hstrong : -MATE_SCORE + 1 ≤ minimax g (e + 1) 0 p := by
        rw [← hxv]
        cases hx2 : x.2 with
        | illegal => simp only [childVal]; omega
        | draw tf => simp only [childVal]; omega
        | next q =>
          have hq := minimax_bounds g N hN hE e 1 q (by omega)
          push_cast at hq
          simp only [childVal, Nat.zero_add]
          omega
      have HC : ChildWindow (fun a b q => (abT g reorder e (0 + 1) a b q).score)
          (fun q => minimax g e (0 + 1) q) := by
        intro a b q h
        exact abT_window g reorder N hN hE hperm e (0 + 1) q a b h (by omega)
      have hcl : ¬ (max (-2147483647 : Int) (-MATE_SCORE + ((0 : Nat) : Int))
          ≥ min (2147483647 : Int) (MATE_SCORE - ((0 : Nat) : Int))) := by
        simp only [Nat.cast_zero]
        omega
      have hroot : abT g reorder (e + 1) 0 (-2147483647) 2147483647 p
          = abTLoop g (fun a b q => (abT g reorder e (0 + 1) a b q).score) 0
              (min (2147483647 : Int) (MATE_SCORE - ((0 : Nat) : Int))) p
              (reorder p (g.moves p))
              (max (-2147483647 : Int) (-MATE_SCORE + ((0 : Nat) : Int))) false NULL_MOVE
              (-(2 ^ 31)) TranspositionTable.NodeType.UPPERBOUND := by
        simp only [abT]
        rw [if_neg hcl]
      have hxmem2 : x ∈ legalChildren (g.moves p) := by rw [hlc]; exact hxmem
      have hxmemL : x ∈ legalChildren (reorder p (g.moves p)) :=
        (List.Perm.mem_iff hpf).mpr hxmem2
      have hall : ∀ mc ∈ legalChildren (reorder p (g.moves p)),
          childVal (fun q => minimax g e (0 + 1) q) mc.2 ≤ minimax g (e + 1) 0 p := by
        intro mc hmc
        have hmem2 : mc ∈ c :: cs := by
          rw [← hlc]
          exact (List.Perm.mem_iff hpf).mp hmc
        rw [hv]
        exact listMaxVal_le _ c cs mc hmem2
      obtain ⟨mc1, h1, h2, h3⟩ := abTLoop_exact g _ (fun q => minimax g e (0 + 1) q) HC 0
        (min (2147483647 : Int) (MATE_SCORE - ((0 : Nat) : Int))) p
        (reorder p (g.moves p)) (max (-2147483647 : Int) (-MATE_SCORE + ((0 : Nat) : Int)))
        false NULL_MOVE (-(2 ^ 31)) TranspositionTable.NodeType.UPPERBOUND
        (minimax g (e + 1) 0 p)
        (by simp only [Nat.cast_zero]; omega) ⟨x, hxmemL, hxv⟩
        (by simp only [Nat.cast_zero]; omega) (by simp only [Nat.cast_zero]; omega) hall
      have h1g : mc1 ∈ c :: cs := by
        rw [← hlc]
        exact (List.Perm.mem_iff hpf).mp h1
      constructor
      · refine ⟨mc1, h1g, ?_, h2⟩
        rw [hroot, h3]
      · have hmmv : minimaxMove g (e + 1) 0 p
            = (firstAtMax (fun mc => childVal (fun q => minimax g e (0 + 1) q) mc.2)
                (minimax g (e + 1) 0 p) (legalChildren (g.moves p))).map
                (fun mc => mc.1) := by
          simp only [minimaxMove]
        obtain ⟨y, hy1, hy2, hy3⟩ := firstAtMax_of_mem
          (fun mc => childVal (fun q => minimax g e (0 + 1) q) mc.2)
          (minimax g (e + 1) 0 p) (legalChildren (g.moves p)) ⟨x, hxmem2, hxv⟩
        have hy2g : y ∈ c :: cs := by rw [← hlc]; exact hy2
        refine ⟨y, hy2g, ?_, hy3⟩
        rw [hmmv, hy1]
        rfl

/-- Witness for the amended claim C1 at a concrete two-move tree with the
identity ordering, including the cache-carrying search from an empty
table. -/
theorem claim_C1_alphabeta_equivalence_amended_witness :
    (abT gC1 (fun _ l => l) 1 0 (-2147483647) 2147483647 0).score = minimax gC1 1 0 0 ∧
    (legalChildren (gC1.moves 0) ≠ [] →
      (∃ mc ∈ legalChildren (gC1.moves 0),
        mc.1 = (abT gC1 (fun _ l => l) 1 0 (-2147483647) 2147483647 0).best ∧
        childVal (fun q => minimax gC1 (1 - 1) 1 q) mc.2 = minimax gC1 1 0 0) ∧
      (∃ mc ∈ legalChildren (gC1.moves 0),
        some mc.1 = minimaxMove gC1 1 0 0 ∧
        childVal (fun q => minimax gC1 (1 - 1) 1 q) mc.2 = minimax gC1 1 0 0)) ∧
    (abTT gC1 (fun _ l => l) 1 0 (-2147483647) 2147483647 0 ttEmptyTest).1
      = minimax gC1 1 0 0 :=
  ⟨(claim_C1_alphabeta_equivalence_amended gC1 (fun _ l => l) 1 (by norm_num [MATE_SCORE])
      (fun q => ⟨by norm_num [gC1, MATE_SCORE], by norm_num [gC1, MATE_SCORE]⟩)
      (fun q => List.Perm.refl _) 1 (le_refl 1) (le_refl 1) 0).1,
   (claim_C1_alphabeta_equivalence_amended gC1 (fun _ l => l) 1 (by norm_num [MATE_SCORE])
      (fun q => ⟨by norm_num [gC1, MATE_SCORE], by norm_num [gC1, MATE_SCORE]⟩)
      (fun q => List.Perm.refl _) 1 (le_refl 1) (le_refl 1) 0).2.1,
   (claim_C1_alphabeta_equivalence_amended gC1 (fun _ l => l) 1 (by norm_num [MATE_SCORE])
      (fun q => ⟨by norm_num [gC1, MATE_SCORE], by norm_num [gC1, MATE_SCORE]⟩)
      (fun q => List.Perm.refl _) 1 (le_refl 1) (le_refl 1) 0).2.2 ttEmptyTest
      (by decide) (by decide)⟩
